import Mathlib

/-!
Verification of the runcity crawling/extraction pipeline (`runcity.py`).

The source is a Python script built around two `html.parser.HTMLParser`
subclasses (LinkParser, RouteParser), a file-backed memoization decorator
(`cache_wrapper`), and pipeline functions (`get_events`, `parse_event`,
`update_events`).  This file shallowly embeds those pieces:

* The standard-library HTML tokenizer is modelled at the event level: a
  document is a list of `HtmlEvent`s (start tag, end tag, text data), exactly
  the callbacks `HTMLParser` delivers.  Where a theorem speaks about a
  concrete document, the event list written down is the tokenization of that
  document's text, recorded in a comment.
* Python exceptions (KeyError, IndexError, AssertionError, ValueError, ...)
  are modelled with `Except PyErr`.
* `json.dumps(-, indent=4, sort_keys=True)` / `json.loads` (standard
  library, external to the repository) are modelled by an executable printer
  and parser over a JSON syntax tree; floats are modelled as the decimal
  literals their repr writes (Python guarantees `float(repr(x)) == x`, so the
  decimal text is the faithful observable).
* `urllib.parse.urljoin` and `float` (standard library, external to the
  repository) are parameters of the pipeline functions; closed witness
  theorems instantiate them with simple stand-ins that agree with the real
  functions on the inputs used.
-/

namespace Runcity

/-! ## Python string helpers -/

/-- Whitespace recognized by Python `str.strip()` / `str.split()` on ASCII
text: space, tab, newline, carriage return, vertical tab, form feed. -/
def isPySpace (c : Char) : Bool :=
  c = ' ' || c = '\t' || c = '\n' || c = '\r' || c = '\x0b' || c = '\x0c'

def dropSpaceLeft : List Char → List Char
  | [] => []
  | c :: cs => if isPySpace c then dropSpaceLeft cs else c :: cs

/-- Python `str.strip()` (no argument): drop leading and trailing whitespace. -/
def pyStrip (s : String) : String :=
  ⟨((dropSpaceLeft ((dropSpaceLeft s.data).reverse)).reverse)⟩

def pySplitAux : List Char → List Char → List (List Char)
  | [], acc => if acc.isEmpty then [] else [acc.reverse]
  | c :: cs, acc =>
      if isPySpace c then
        if acc.isEmpty then pySplitAux cs [] else acc.reverse :: pySplitAux cs []
      else pySplitAux cs (c :: acc)

/-- Python `str.split()` (no argument): split on whitespace runs, no empties. -/
def pySplit (s : String) : List String :=
  (pySplitAux s.data []).map (fun cs => ⟨cs⟩)

def startsWithList : List Char → List Char → Bool
  | [], _ => true
  | _ :: _, [] => false
  | a :: as, b :: bs => a == b && startsWithList as bs

def subListAux (needle : List Char) : List Char → Bool
  | [] => startsWithList needle []
  | c :: cs => startsWithList needle (c :: cs) || subListAux needle cs

/-- Python `needle in hay` for strings: substring containment. -/
def pyIn (needle hay : String) : Bool := subListAux needle.data hay.data

/-- Python `s.rstrip` with a slash argument: drop trailing `/` characters. -/
def pyRstripSlash (s : String) : String :=
  ⟨((s.data.reverse.dropWhile (fun c => c == '/')).reverse)⟩

/-- Python `os.path.basename`: the part after the last `/`. -/
def pyBasename (s : String) : String :=
  ⟨s.data.foldl (fun acc c => if c = '/' then [] else acc ++ [c]) []⟩

/-- Python `os.path.join a b` for a non-empty relative layout: `b` if it is
absolute, otherwise `a` and `b` glued with a single `/`. -/
def pyJoin (a b : String) : String :=
  if b.data.head? = some '/' then b
  else if a.data.getLast? = some '/' then a ++ b
  else a ++ "/" ++ b

/-- The extension part of Python `os.path.splitext` (with the dot): the
suffix of the final path component from its last dot, where dots leading
that component do not start an extension. -/
def pySplitextExt (p : String) : String :=
  let base := p.data.foldl (fun acc c => if c = '/' then [] else acc ++ [c]) []
  let t := base.dropWhile (fun c => c == '.')
  if t.contains '.' then
    ⟨'.' :: ((t.reverse.takeWhile (fun c => !(c == '.'))).reverse)⟩
  else ""

/-! ## Python dict helpers

Records in the source are Python dicts with string keys.  `dict(attrs)`
built from an attribute list keeps the last occurrence of a repeated key;
`d[k] = v` overwrites in place or appends a new key at the end. -/

/-- `dict(attrs).get(k)`: the last occurrence of `k` wins, as in Python
`dict` construction from a pair list. -/
def pyDictGet (attrs : List (String × String)) (k : String) : Option String :=
  ((attrs.filter (fun p => p.1 == k)).map (fun p => p.2)).getLast?

/-- First-occurrence lookup for records built by `dictSet` (whose keys are
unique, as in a Python dict). -/
def dictGet (d : List (String × String)) (k : String) : Option String :=
  ((d.filter (fun p => p.1 == k)).map (fun p => p.2)).head?

/-- Python `k in d` for a dict. -/
def dictHas (d : List (String × String)) (k : String) : Bool :=
  d.any (fun p => p.1 == k)

/-- Python `d[k] = v`: overwrite in place, or append a new key at the end. -/
def dictSet (d : List (String × String)) (k v : String) : List (String × String) :=
  if d.any (fun p => p.1 == k) then
    d.map (fun p => if p.1 == k then (k, v) else p)
  else d ++ [(k, v)]

/-! ## Errors and HTML events -/

inductive PyErr where
  | keyError (k : String)
  | indexError
  | assertionError
  | valueError
  | typeError
  | jsonDecodeError
  deriving Repr, DecidableEq

/-- One callback of the standard-library HTML tokenizer: exactly the events
`HTMLParser.feed` delivers to a subclass, in document order. -/
inductive HtmlEvent where
  | startTag (tag : String) (attrs : List (String × String))
  | endTag (tag : String)
  | dataEvt (s : String)
  deriving Repr, DecidableEq

/-! ## LinkParser -/

/-- State of `LinkParser`: collected `(href, text)` pairs and the currently
open anchor's target. -/
structure LinkState where
  links : List (String × String)
  in_link : Option String
  deriving Repr, DecidableEq

def LinkState.init : LinkState := { links := [], in_link := none }

/-- `LinkParser.handle_starttag`: an `a` tag records `dict(attrs)['href']`
as the active link (KeyError when the anchor has no href). -/
def LinkParser.handle_starttag (s : LinkState) (tag : String)
    (attrs : List (String × String)) : Except PyErr LinkState :=
  if tag = "a" then
    match pyDictGet attrs "href" with
    | some h => .ok { s with in_link := some h }
    | none => .error (.keyError "href")
  else .ok s

/-- `LinkParser.handle_endtag`: a closing `a` clears the active link. -/
def LinkParser.handle_endtag (s : LinkState) (tag : String) : LinkState :=
  if tag = "a" then { s with in_link := none } else s

/-- `LinkParser.handle_data`: while a link is active, append one
`(link, data.strip())` pair to the collection. -/
def LinkParser.handle_data (s : LinkState) (d : String) : LinkState :=
  match s.in_link with
  | some l => { s with links := s.links ++ [(l, pyStrip d)] }
  | none => s

def LinkParser.step (s : LinkState) : HtmlEvent → Except PyErr LinkState
  | .startTag tag attrs => LinkParser.handle_starttag s tag attrs
  | .endTag tag => .ok (LinkParser.handle_endtag s tag)
  | .dataEvt d => .ok (LinkParser.handle_data s d)

/-- The feed loop from a given state: deliver each event in order, stopping
at the first raised exception. -/
def LinkParser.run (s : LinkState) : List HtmlEvent → Except PyErr LinkState
  | [] => .ok s
  | e :: evs =>
      match LinkParser.step s e with
      | .ok s2 => LinkParser.run s2 evs
      | .error err => .error err

/-- `process_html(LinkParser, -)`: feed all events, return `get_result()`. -/
def processLink (evs : List HtmlEvent) : Except PyErr (List (String × String)) :=
  (LinkParser.run LinkState.init evs).map (fun s => s.links)

/-! ## RouteParser -/

/-- State of `RouteParser`: the record list plus the nesting-context flags. -/
structure RouteState where
  routes : List (List (String × String))
  in_routes : Bool
  in_a : Bool
  in_id : Bool
  in_description : Bool
  deriving Repr, DecidableEq

def RouteState.init : RouteState :=
  { routes := [], in_routes := false, in_a := false, in_id := false,
    in_description := false }

/-- `self.routes[-1][k] = v` on a list of records: IndexError when empty. -/
def setLastField (rs : List (List (String × String))) (k v : String) :
    Except PyErr (List (List (String × String))) :=
  match rs.getLast? with
  | none => .error .indexError
  | some r => .ok (rs.dropLast ++ [dictSet r k v])

/-- `self.routes[-1][k] = self.routes[-1].get(k, '') + d`. -/
def appendLastField (rs : List (List (String × String))) (k d : String) :
    Except PyErr (List (List (String × String))) :=
  match rs.getLast? with
  | none => .error .indexError
  | some r => .ok (rs.dropLast ++ [dictSet r k (((dictGet r k).getD "") ++ d)])

/-- `RouteParser.handle_starttag`, including the early return while the
route-list gate is closed and the sequence of independent `if` statements
while it is open. -/
def RouteParser.handle_starttag (s : RouteState) (tag : String)
    (attrs : List (String × String)) : Except PyErr RouteState :=
  if !s.in_routes then
    if tag = "dl" && (pyDictGet attrs "class" == some "route") then
      .ok { s with in_routes := true }
    else .ok s
  else do
    let s := if tag = "a" then { s with in_a := true } else s
    let s ←
      if tag = "dt" then
        match pyDictGet attrs "id" with
        | some i => pure { s with routes := s.routes ++ [[("id", i)]], in_id := true }
        | none => Except.error (.keyError "id")
      else pure s
    let s ←
      if tag = "abbr" then
        match pyDictGet attrs "class", pyDictGet attrs "title" with
        | some c, some t => (setLastField s.routes c t).map (fun rs => { s with routes := rs })
        | none, _ => Except.error (.keyError "class")
        | some _, none => Except.error (.keyError "title")
      else pure s
    let s :=
      if tag = "dd" && (pyDictGet attrs "class" == some "description") then
        { s with in_description := true }
      else s
    if s.in_id && tag = "a" then
      match s.routes.getLast? with
      | none => Except.error .indexError
      | some r =>
          if !(dictHas r "link") && (pyDictGet attrs "href").isSome then
            (setLastField s.routes "link" ((pyDictGet attrs "href").getD "")).map
              (fun rs => { s with routes := rs })
          else pure s
    else pure s

/-- `RouteParser.handle_endtag`. -/
def RouteParser.handle_endtag (s : RouteState) (tag : String) : RouteState :=
  if !s.in_routes then s
  else
    let s := if tag = "dl" then { s with in_routes := false } else s
    let s := if s.in_a && tag = "a" then { s with in_a := false } else s
    let s := if s.in_id && tag = "dt" then { s with in_id := false } else s
    if s.in_description && tag = "dd" then { s with in_description := false } else s

/-- `RouteParser.handle_data`: while in an entry id (and not inside an
anchor label) append the stripped text to `title`; likewise `description`. -/
def RouteParser.handle_data (s : RouteState) (d : String) : Except PyErr RouteState :=
  if !s.in_routes then .ok s
  else do
    let d := pyStrip d
    let s ←
      if s.in_id && !s.in_a then
        (appendLastField s.routes "title" d).map (fun rs => { s with routes := rs })
      else pure s
    if s.in_description && !s.in_a then
      (appendLastField s.routes "description" d).map (fun rs => { s with routes := rs })
    else pure s

def RouteParser.step (s : RouteState) : HtmlEvent → Except PyErr RouteState
  | .startTag tag attrs => RouteParser.handle_starttag s tag attrs
  | .endTag tag => .ok (RouteParser.handle_endtag s tag)
  | .dataEvt d => RouteParser.handle_data s d

/-- The feed loop from a given state: deliver each event in order, stopping
at the first raised exception. -/
def RouteParser.run (s : RouteState) : List HtmlEvent → Except PyErr RouteState
  | [] => .ok s
  | e :: evs =>
      match RouteParser.step s e with
      | .ok s2 => RouteParser.run s2 evs
      | .error err => .error err

def runRouteState (evs : List HtmlEvent) : Except PyErr RouteState :=
  RouteParser.run RouteState.init evs

/-- `process_html(RouteParser, -)`: feed all events, return `get_result()`. -/
def processRoute (evs : List HtmlEvent) : Except PyErr (List (List (String × String))) :=
  (runRouteState evs).map (fun s => s.routes)

/-! ## Pipeline data -/

/-- The `NO_ROUTE_GAMES` allowlist of known route-less event ids. -/
def NO_ROUTE_GAMES : List String :=
  ["pushkin2005", "dobrypiter2008", "dobrypiter2009", "ekb2009", "ekb2010",
   "magnitogorsk2011", "verhneuralsk2011", "ekb2011", "magnitogorsk2012",
   "concert2012", "metromsk2012", "victory2012", "ekb2012", "ufa2012",
   "deephigh2012", "metropolia2013", "magnitogorsk2013", "ekb2013",
   "college2013", "ufa2013", "constructivnoekb", "nizhnynovgorod2014",
   "magnitogorsk2014", "vuoksa2014", "ufa2014", "cleanpeterhof2015",
   "magnitogorsk2015", "verhneuralsk2015", "cleankuyvozi2015", "krapivin2016",
   "nizhnynovgorod2016", "ufa2016", "intellectuada2018autumn", "kazan2019",
   "intellectuada2021spring", "poets2021", "vdnh", "onlineintegral2021"]

/-- The fixed routes-section labels matched against stripped link text in
`parse_event`. -/
def routeLabels : List String :=
  ["Маршрут", "Маршруты", "Контрольные пункты", "Маршруты соренований"]

/-- The message of `logging.error` in `parse_event` for an unallowlisted
event with no routes link. -/
def noRoutesMsg (id url : String) : String :=
  "No routes found for " ++ id ++ ", check " ++ url ++ " manually"

/-- A Python value appearing in a processed route record: the original
string fields, or a coordinate converted by `float`. -/
inductive PyVal where
  | str (s : String)
  | num (q : Rat)
  deriving Repr, DecidableEq

/-- The `for link, data in ...` search of `parse_event`: the href of the
first pair whose stripped text is one of the route labels. -/
def findRouteLink : List (String × String) → Option String
  | [] => none
  | (link, d) :: rest =>
      if pyStrip d ∈ routeLabels then some link else findRouteLink rest

/-- The record-filtering loop of `parse_event` over the RouteParser output.
A record is skipped when it has neither coordinate; otherwise its
coordinates are converted with `float` (KeyError when a coordinate key is
absent, ValueError when `float` rejects the text), its link is resolved
against the all-routes URL, and it is kept.  `pf` models the standard
library `float`, `uj` models `urllib.parse.urljoin`. -/
def processItems (pf : String → Option Rat) (uj : String → String → String)
    (allRoutesUrl : String) :
    List (List (String × String)) → Except PyErr (List (List (String × PyVal)))
  | [] => .ok []
  | item :: rest => do
      if !(dictHas item "longitude") && !(dictHas item "latitude") then
        processItems pf uj allRoutesUrl rest
      else
        let lonS ← match dictGet item "longitude" with
          | some s => pure s
          | none => Except.error (.keyError "longitude")
        let lon ← match pf lonS with
          | some q => pure q
          | none => Except.error .valueError
        let latS ← match dictGet item "latitude" with
          | some s => pure s
          | none => Except.error (.keyError "latitude")
        let lat ← match pf latS with
          | some q => pure q
          | none => Except.error .valueError
        let link ← match dictGet item "link" with
          | some s => pure s
          | none => Except.error (.keyError "link")
        let base : List (String × PyVal) := item.map (fun p => (p.1, PyVal.str p.2))
        let upd := fun (d : List (String × PyVal)) (k : String) (v : PyVal) =>
          if d.any (fun p => p.1 == k) then
            d.map (fun p => if p.1 == k then (k, v) else p)
          else d ++ [(k, v)]
        let item' := upd (upd (upd base "longitude" (.num lon)) "latitude" (.num lat))
          "url" (.str (uj allRoutesUrl link))
        let rest' ← processItems pf uj allRoutesUrl rest
        pure (item' :: rest')

/-- The outcome of `parse_event`: the Python function returns the empty
dict when no routes section is found, and a list of kept records otherwise. -/
inductive EventResult where
  | noRoutes
  | routes (items : List (List (String × PyVal)))
  deriving Repr, DecidableEq

structure ParseEventOut where
  logs : List String
  result : EventResult
  deriving Repr, DecidableEq

/-- `parse_event`, modelled over the tokenized event page (`mainEvents`)
and the tokenized all-routes page (`routesEvents`); the Fetch Cache and the
HTTP fetch that produce those pages are upstream of this function.  The
first link whose stripped text is a route label must satisfy the structural
assert `urljoin(event.url, link) + 'all/' == urljoin(event.url,
'routes/all/')`; with no matching link the function logs (unless the id is
allowlisted) and returns the empty dict. -/
def parse_event (uj : String → String → String) (pf : String → Option Rat)
    (eventId eventUrl : String) (mainEvents routesEvents : List HtmlEvent) :
    Except PyErr ParseEventOut := do
  let pairs ← processLink mainEvents
  let all_routes_url := uj eventUrl "routes/all/"
  match findRouteLink pairs with
  | none =>
      pure { logs := if eventId ∈ NO_ROUTE_GAMES then [] else [noRoutesMsg eventId eventUrl],
             result := .noRoutes }
  | some link =>
      if uj eventUrl link ++ "all/" = all_routes_url then do
        let items ← processRoute routesEvents
        let kept ← processItems pf uj all_routes_url items
        pure { logs := [], result := .routes kept }
      else Except.error .assertionError

/-! ## Event catalog (`get_events`) -/

structure Event where
  id : String
  url : String
  title : String
  parsed_path : String
  is_parsed : Bool
  deriving Repr, DecidableEq

/-- The filter of the `get_events` comprehension: at least two
whitespace-separated words of text and an `/events/` segment in the link. -/
def keepPair (p : String × String) : Bool :=
  decide ((pySplit p.2).length > 1) && pyIn "/events/" p.1

/-- One surviving pair turned into an Event record: id from the final
non-empty path segment, absolute url, then `parsed_path` and `is_parsed`
(`ex` models `os.path.exists`). -/
def mkEvent (uj : String → String → String) (ex : String → Bool)
    (archiveUrl : String) (p : String × String) : Event :=
  let id := pyBasename (pyRstripSlash p.1)
  let path := pyJoin "cache/parsed" id ++ ".json"
  { id := id, url := uj archiveUrl p.1, title := p.2,
    parsed_path := path, is_parsed := ex path }

/-- `get_events`, modelled over the tokenized archive index page: the
comprehension filters and maps the LinkParser pairs in extraction order,
and the function returns `list(reversed(events))`. -/
def get_events (uj : String → String → String) (ex : String → Bool)
    (archiveUrl : String) (archiveEvents : List HtmlEvent) :
    Except PyErr (List Event) := do
  let pairs ← processLink archiveEvents
  let events := (pairs.filter keepPair).map (mkEvent uj ex archiveUrl)
  pure events.reverse

/-! ## Aggregation (`update_events`) -/

/-- One output GeoFeature.  The constant `type` markers and the geometry
wrapper are kept implicitly; `header`, `body`, `footer` are the three
balloon-content properties. -/
structure GeoFeature where
  id : Nat
  coordinates : Rat × Rat
  header : String
  body : String
  footer : String
  deriving Repr, DecidableEq

/-- `item['latitude']` then `float(-)` in `update_events`: the value is
already a float for pipeline records; a string is converted with `pf`. -/
def getFloatField (pf : String → Option Rat) (item : List (String × PyVal))
    (k : String) : Except PyErr Rat :=
  match (((item.filter (fun p => p.1 == k)).map (fun p => p.2)).head? : Option PyVal) with
  | none => .error (.keyError k)
  | some (PyVal.num q) => .ok q
  | some (PyVal.str s) =>
      match pf s with
      | some q => .ok q
      | none => .error .valueError

def getStrField (item : List (String × PyVal)) (k : String) : Except PyErr String :=
  match (((item.filter (fun p => p.1 == k)).map (fun p => p.2)).head? : Option PyVal) with
  | none => .error (.keyError k)
  | some (PyVal.str s) => .ok s
  | some (PyVal.num _) => .error .typeError

/-- `item.get('description', '')` (a numeric value would fail the later
string concatenation). -/
def getStrFieldD (item : List (String × PyVal)) (k : String) : Except PyErr String :=
  match (((item.filter (fun p => p.1 == k)).map (fun p => p.2)).head? : Option PyVal) with
  | none => .ok ""
  | some (PyVal.str s) => .ok s
  | some (PyVal.num _) => .error .typeError

/-- The feature built for one kept record in `update_events`, with `n` the
current `len(features)`. -/
def mkFeature (pf : String → Option Rat) (n : Nat) (eventTitle : String)
    (item : List (String × PyVal)) : Except PyErr GeoFeature := do
  let lat ← getFloatField pf item "latitude"
  let lon ← getFloatField pf item "longitude"
  let title ← getStrField item "title"
  let desc ← getStrFieldD item "description"
  let url ← getStrField item "url"
  pure { id := n, coordinates := (lat, lon),
         header := eventTitle ++ ": " ++ title, body := desc,
         footer := "<a href=\"" ++ url ++ "\">" ++ url ++ "</a>" }

/-- The inner `for item in parsed` loop of `update_events`: each kept
record becomes one feature whose id is `len(features)` at append time. -/
def featLoop (pf : String → Option Rat) (title : String) (fs : List GeoFeature) :
    List (List (String × PyVal)) → Except PyErr (List GeoFeature)
  | [] => .ok fs
  | item :: items =>
      match mkFeature pf fs.length title item with
      | .ok f => featLoop pf title (fs ++ [f]) items
      | .error e => .error e

def updateEventsAux (pf : String → Option Rat) (acc : List GeoFeature) :
    List (String × List (List (String × PyVal))) → Except PyErr (List GeoFeature)
  | [] => .ok acc
  | (title, items) :: evs => do
      let acc ← featLoop pf title acc items
      updateEventsAux pf acc evs

/-- The feature-collecting loop of `update_events`, over the per-event
parsed results (event title paired with its kept records, in catalog
order).  Each feature's id is `len(features)` at the moment it is
appended.  The surrounding JS-artifact writing is out of scope. -/
def update_events (pf : String → Option Rat)
    (eventsParsed : List (String × List (List (String × PyVal)))) :
    Except PyErr (List GeoFeature) :=
  updateEventsAux pf [] eventsParsed

/-! ## Concrete stand-ins for external collaborators

Used only to instantiate closed witness and counterexample theorems.  The
main theorems quantify over the collaborator functions. -/

/-- Stand-in for `urllib.parse.urljoin`, agreeing with it when the base URL
ends in `/` and the second argument is a plain relative path (the shape used
by the pipeline): the relative path is appended to the base. -/
def ujAppend (base rel : String) : String := base ++ rel

/-- Stand-in for Python `float` on plain decimal literals: optional sign,
digits, optional fraction. -/
def pyFloatSimple (s : String) : Option Rat :=
  let go : List Char → Option Rat := fun cs =>
    let ds := cs.takeWhile Char.isDigit
    let rest := cs.drop ds.length
    if ds.isEmpty then none
    else
      let ip : Nat := ds.foldl (fun a c => a * 10 + (c.toNat - 48)) 0
      match rest with
      | [] => some (ip : Rat)
      | '.' :: fs =>
          let fd := fs.takeWhile Char.isDigit
          if fd.isEmpty || !(fs.drop fd.length).isEmpty then none
          else
            let fv : Nat := fd.foldl (fun a c => a * 10 + (c.toNat - 48)) 0
            some ((ip : Rat) + (fv : Rat) / ((10 : Rat) ^ fd.length))
      | _ => none
  match s.data with
  | '-' :: cs => (go cs).map (fun q => -q)
  | cs => go cs

/-! ## Denotational description of the LinkParser

`linkPairs cur evs` describes the pairs the LinkParser collects over `evs`
when the active link is currently `cur`: every text node seen while a link
is active contributes exactly one pair carrying that link and the node's
own stripped text.  Pairs are never merged across text nodes. -/

def linkPairs (cur : Option String) : List HtmlEvent → Except PyErr (List (String × String))
  | [] => .ok []
  | .startTag t attrs :: evs =>
      if t = "a" then
        match pyDictGet attrs "href" with
        | some h => linkPairs (some h) evs
        | none => .error (.keyError "href")
      else linkPairs cur evs
  | .endTag t :: evs => linkPairs (if t = "a" then none else cur) evs
  | .dataEvt d :: evs =>
      match cur with
      | some l => (linkPairs (some l) evs).map (fun ps => (l, pyStrip d) :: ps)
      | none => linkPairs none evs

/-! ## Concrete documents used by closed theorems -/

/-- The tokenization of `<a href="/x">Hello <b>World</b></a>`: the
tokenizer delivers the text on either side of the nested `<b>` element as
two separate data callbacks. -/
def exampleAnchorEvents : List HtmlEvent :=
  [.startTag "a" [("href", "/x")], .dataEvt "Hello ", .startTag "b" [],
   .dataEvt "World", .endTag "b", .endTag "a"]

/-- The tokenization of `<dl class="route"><dt id="r1"></dt>` — a route
list whose first entry has already been opened and closed. -/
def entryClosedEvents : List HtmlEvent :=
  [.startTag "dl" [("class", "route")], .startTag "dt" [("id", "r1")],
   .endTag "dt"]

/-- The RouteParser state after `entryClosedEvents`: one record collected,
the route-list gate open, the entry-id flag already cleared. -/
def entryClosedState : RouteState :=
  { routes := [[("id", "r1")]], in_routes := true, in_a := false,
    in_id := false, in_description := false }

/-- An abbreviation start event carrying latitude markup, as inside
`<abbr class="latitude" title="55.7">`. -/
def abbrLatEvent : HtmlEvent :=
  .startTag "abbr" [("class", "latitude"), ("title", "55.7")]

/-- The tokenization of `<dl class="route"><abbr class="latitude"
title="55.7">` — an abbreviation inside the route-list container before
any entry has been seen. -/
def abbrBeforeEntryEvents : List HtmlEvent :=
  [.startTag "dl" [("class", "route")], abbrLatEvent]

/-- A concrete event URL used by closed theorems. -/
def evUrl : String := "https://www.runcity.org/ru/events/ev2024/"

/-- The tokenization of an event page whose routes link carries the label
`Маршруты`: `<a href="routes/">Маршруты</a>`. -/
def matchingMainEvents : List HtmlEvent :=
  [.startTag "a" [("href", "routes/")], .dataEvt "Маршруты", .endTag "a"]

/-- The tokenization of an event page whose routes-looking label hangs on a
wrong link: `<a href="wrong/">Маршруты</a>`. -/
def mismatchMainEvents : List HtmlEvent :=
  [.startTag "a" [("href", "wrong/")], .dataEvt "Маршруты", .endTag "a"]

/-- The tokenization of an event page with a single non-route link:
`<a href="/about/">О проекте</a>`. -/
def noMatchMainEvents : List HtmlEvent :=
  [.startTag "a" [("href", "/about/")], .dataEvt "О проекте", .endTag "a"]

/-- The tokenization of an all-routes page whose single entry carries a
latitude but no longitude:
`<dl class="route"><dt id="r1"><abbr class="latitude" title="55.7"></abbr></dt></dl>`. -/
def latOnlyRoutesEvents : List HtmlEvent :=
  [.startTag "dl" [("class", "route")], .startTag "dt" [("id", "r1")],
   .startTag "abbr" [("class", "latitude"), ("title", "55.7")],
   .endTag "abbr", .endTag "dt", .endTag "dl"]

/-- The archive index URL used by closed catalog theorems. -/
def c7ArchiveUrl : String := "https://www.runcity.org/ru/events/archive"

/-- The tokenization of an archive index page listing two events
newest-first, each anchor with a multi-word title and an `/events/` link. -/
def c7ArchiveEvents : List HtmlEvent :=
  [.startTag "a" [("href", "/ru/events/msk2023/")],
   .dataEvt "Бегущий Город Москва", .endTag "a",
   .startTag "a" [("href", "/ru/events/spb2022/")],
   .dataEvt "Бегущий Город Петербург", .endTag "a"]

/-- The pairs the Link Extractor collects from `c7ArchiveEvents`. -/
def c7Pairs : List (String × String) :=
  [("/ru/events/msk2023/", "Бегущий Город Москва"),
   ("/ru/events/spb2022/", "Бегущий Город Петербург")]

/-- The catalog built from `c7ArchiveEvents`: oldest first. -/
def c7Out : List Event :=
  [mkEvent ujAppend (fun _ => false) c7ArchiveUrl
    ("/ru/events/spb2022/", "Бегущий Город Петербург"),
   mkEvent ujAppend (fun _ => false) c7ArchiveUrl
    ("/ru/events/msk2023/", "Бегущий Город Москва")]

/-- Per-event parsed results used by the closed aggregation theorem: the
first event contributes two kept records, the second one. -/
def c8Input : List (String × List (List (String × PyVal))) :=
  [("E1", [[("title", .str "T1"), ("latitude", .num 1), ("longitude", .num 2),
            ("url", .str "u1")],
           [("title", .str "T2"), ("latitude", .num 3), ("longitude", .num 4),
            ("url", .str "u2")]]),
   ("E2", [[("title", .str "T3"), ("latitude", .num 5), ("longitude", .num 6),
            ("url", .str "u3")]])]

/-- The features `update_events` builds from `c8Input`. -/
def c8Feats : List GeoFeature :=
  [{ id := 0, coordinates := (1, 2), header := "E1: T1", body := "",
     footer := "<a href=\"u1\">u1</a>" },
   { id := 1, coordinates := (3, 4), header := "E1: T2", body := "",
     footer := "<a href=\"u2\">u2</a>" },
   { id := 2, coordinates := (5, 6), header := "E2: T3", body := "",
     footer := "<a href=\"u3\">u3</a>" }]

/-! ## JSON values

Model of the payloads `json.dumps` / `json.loads` move through the Fetch
Cache.  Python floats are modelled as the decimal literal their repr
writes (`dec m e` is the value `m / 10 ^ e` printed with `e` fraction
digits); Python guarantees `float(repr(x)) == x`, so the decimal text is
the faithful observable of the float leg of the round trip.  Exponent
notation (reprs of very large or very small floats) is outside the model. -/

inductive Json where
  | null
  | bool (b : Bool)
  | int (n : Int)
  | dec (m : Int) (e : Nat)
  | str (s : String)
  | arr (elems : List Json)
  | obj (fields : List (String × Json))
  deriving Repr

/-! ## JSON printing (`json.dumps` with indent=4, sort_keys=True) -/

def digitChar (d : Nat) : Char := Char.ofNat (48 + d)

def natDigitsAux (n : Nat) (acc : List Char) : List Char :=
  if n < 10 then digitChar n :: acc
  else natDigitsAux (n / 10) (digitChar (n % 10) :: acc)
termination_by n
decreasing_by omega

/-- The decimal digits of `n`, most significant first, no leading zeros
(except for `0` itself). -/
def natDigits (n : Nat) : List Char := natDigitsAux n []

def intChars (n : Int) : List Char :=
  if n < 0 then '-' :: natDigits n.natAbs else natDigits n.natAbs

/-- The last `w` decimal digits of `n`, leading zeros kept. -/
def natPad : Nat → Nat → List Char
  | 0, _ => []
  | w + 1, n => natPad w (n / 10) ++ [digitChar (n % 10)]

/-- Python float repr of `m / 10 ^ e` for `e ≥ 1`: sign, integer part,
dot, exactly `e` fraction digits. -/
def decChars (m : Int) (e : Nat) : List Char :=
  let a := m.natAbs
  (if m < 0 then ['-'] else []) ++ natDigits (a / 10 ^ e) ++ '.' :: natPad e (a % 10 ^ e)

def hexDigit (d : Nat) : Char :=
  if d < 10 then Char.ofNat (48 + d) else Char.ofNat (87 + d)

def uEsc (n : Nat) : List Char :=
  ['\\', 'u', hexDigit (n / 4096 % 16), hexDigit (n / 256 % 16),
   hexDigit (n / 16 % 16), hexDigit (n % 16)]

/-- The escape `json.dumps` (default ensure_ascii) writes for one
character: two-character escapes for the JSON specials, printable ASCII
verbatim, `\uXXXX` otherwise, and a surrogate pair beyond the BMP. -/
def escChar (c : Char) : List Char :=
  if c = '"' then ['\\', '"']
  else if c = '\\' then ['\\', '\\']
  else if c.toNat = 8 then ['\\', 'b']
  else if c.toNat = 9 then ['\\', 't']
  else if c.toNat = 10 then ['\\', 'n']
  else if c.toNat = 12 then ['\\', 'f']
  else if c.toNat = 13 then ['\\', 'r']
  else if 32 ≤ c.toNat && c.toNat ≤ 126 then [c]
  else if c.toNat < 65536 then uEsc c.toNat
  else uEsc (55296 + (c.toNat - 65536) / 1024) ++ uEsc (56320 + (c.toNat - 65536) % 1024)

def escList (s : String) : List Char := (s.data.map escChar).flatten

def strChars (s : String) : List Char := '"' :: escList s ++ ['"']

def indentChars (k : Nat) : List Char := List.replicate k ' '

mutual

/-- The text of one value at nesting level `lvl`, as `json.dumps` with
`indent=4` writes it.  `sort_keys=True` is modelled by printing a value
already canonicalized with `canon`. -/
def dumpsVal (lvl : Nat) : Json → List Char
  | .bool false => ['f', 'a', 'l', 's', 'e']
  | .bool true => ['t', 'r', 'u', 'e']
  | .null => ['n', 'u', 'l', 'l']
  | .int n => intChars n
  | .dec m e => decChars m e
  | .str s => strChars s
  | .arr [] => ['[', ']']
  | .arr (x :: xs) =>
      '[' :: '\n' :: (dumpsItems (lvl + 1) x xs ++ '\n' :: (indentChars (4 * lvl) ++ [']']))
  | .obj [] => ['{', '}']
  | .obj ((k, v) :: ps) =>
      '{' :: '\n' :: (dumpsFields (lvl + 1) k v ps ++ '\n' :: (indentChars (4 * lvl) ++ ['}']))
termination_by v => sizeOf v

/-- Comma-and-newline separated array items, each on its own indented line. -/
def dumpsItems (lvl : Nat) (x : Json) (xs : List Json) : List Char :=
  match xs with
  | [] => indentChars (4 * lvl) ++ dumpsVal lvl x
  | y :: ys => indentChars (4 * lvl) ++ (dumpsVal lvl x ++ ',' :: '\n' :: dumpsItems lvl y ys)
termination_by 1 + sizeOf x + sizeOf xs

/-- Comma-and-newline separated object fields, `"key": value` each on its
own indented line. -/
def dumpsFields (lvl : Nat) (k : String) (v : Json) (kvs : List (String × Json)) : List Char :=
  match kvs with
  | [] => indentChars (4 * lvl) ++ (strChars k ++ ':' :: ' ' :: dumpsVal lvl v)
  | (k2, v2) :: ps =>
      indentChars (4 * lvl) ++
        (strChars k ++ ':' :: ' ' :: (dumpsVal lvl v ++ ',' :: '\n' :: dumpsFields lvl k2 v2 ps))
termination_by 1 + sizeOf v + sizeOf kvs

end

/-- Code-point comparison of key text, as Python compares strings. -/
def charListLt : List Char → List Char → Bool
  | [], [] => false
  | [], _ :: _ => true
  | _ :: _, [] => false
  | a :: as, b :: bs =>
      if a.toNat < b.toNat then true
      else if b.toNat < a.toNat then false
      else charListLt as bs

def keyLe (a b : String) : Bool := !(charListLt b.data a.data)

def insField (p : String × Json) : List (String × Json) → List (String × Json)
  | [] => [p]
  | q :: qs => if keyLe p.1 q.1 then p :: q :: qs else q :: insField p qs

/-- Insertion sort of object fields by key, the order `sort_keys=True`
writes them in. -/
def sortFields : List (String × Json) → List (String × Json)
  | [] => []
  | p :: ps => insField p (sortFields ps)

mutual

/-- The canonical form a value assumes after one dump/load cycle: object
fields recursively sorted by key, everything else untouched. -/
def canon : Json → Json
  | .arr xs => .arr (canonList xs)
  | .obj kvs => .obj (sortFields (canonFields kvs))
  | .null => .null
  | .bool b => .bool b
  | .int n => .int n
  | .dec m e => .dec m e
  | .str s => .str s
termination_by v => sizeOf v

def canonList : List Json → List Json
  | [] => []
  | x :: xs => canon x :: canonList xs
termination_by xs => sizeOf xs

def canonFields : List (String × Json) → List (String × Json)
  | [] => []
  | (k, v) :: kvs => (k, canon v) :: canonFields kvs
termination_by kvs => sizeOf kvs

end

/-- `json.dumps(v, indent=4, sort_keys=True)`. -/
def dumps (v : Json) : String := ⟨dumpsVal 0 (canon v)⟩

/-! ## JSON parsing (`json.loads`)

A recursive-descent reading of the JSON grammar as the standard-library
scanner accepts it (strict mode: unescaped control characters rejected;
exponent notation and lone surrogates are outside the model, see above). -/

def isJsonWs (c : Char) : Bool := c = ' ' || c = '\t' || c = '\n' || c = '\r'

def skipWs (cs : List Char) : List Char := cs.dropWhile isJsonWs

def hexVal (c : Char) : Option Nat :=
  if 48 ≤ c.toNat && c.toNat ≤ 57 then some (c.toNat - 48)
  else if 97 ≤ c.toNat && c.toNat ≤ 102 then some (c.toNat - 87)
  else if 65 ≤ c.toNat && c.toNat ≤ 70 then some (c.toNat - 55)
  else none

def hex4 (a b c d : Char) : Option Nat := do
  let x ← hexVal a
  let y ← hexVal b
  let z ← hexVal c
  let w ← hexVal d
  pure (((x * 16 + y) * 16 + z) * 16 + w)

def escDecode (c : Char) : Option Char :=
  if c = '"' then some '"'
  else if c = '\\' then some '\\'
  else if c = '/' then some '/'
  else if c = 'b' then some (Char.ofNat 8)
  else if c = 'f' then some (Char.ofNat 12)
  else if c = 'n' then some '\n'
  else if c = 'r' then some (Char.ofNat 13)
  else if c = 't' then some '\t'
  else none

/-- Prepend a decoded character to a string-scan result. -/
def consStr (c : Char) : Option (List Char × List Char) → Option (List Char × List Char)
  | some (s, r) => some (c :: s, r)
  | none => none

mutual

/-- The string scanner: decode until the closing quote, returning the
decoded characters and the rest of the input. -/
def parseStrBody : List Char → Option (List Char × List Char)
  | [] => none
  | c :: cs =>
    if c = '"' then some ([], cs)
    else if c = '\\' then parseStrEsc cs
    else if c.toNat < 32 then none
    else consStr c (parseStrBody cs)
termination_by cs => cs.length

/-- After a backslash: one of the short escapes, or a `\u` sequence. -/
def parseStrEsc : List Char → Option (List Char × List Char)
  | [] => none
  | e :: cs2 =>
    if e = 'u' then parseStrU cs2
    else
      match escDecode e with
      | none => none
      | some d => consStr d (parseStrBody cs2)
termination_by cs => cs.length

/-- After `\u`: four hex digits; a high surrogate must pair with a low
one, and a lone low surrogate has no model-side character. -/
def parseStrU : List Char → Option (List Char × List Char)
  | h1 :: h2 :: h3 :: h4 :: cs3 =>
    match hex4 h1 h2 h3 h4 with
    | none => none
    | some n =>
      if 55296 ≤ n && n ≤ 56319 then parseStrLow n cs3
      else if 56320 ≤ n && n ≤ 57343 then none
      else consStr (Char.ofNat n) (parseStrBody cs3)
  | _ => none
termination_by cs => cs.length

/-- The low half of a surrogate pair, combined with the high half `n`. -/
def parseStrLow (n : Nat) : List Char → Option (List Char × List Char)
  | '\\' :: 'u' :: g1 :: g2 :: g3 :: g4 :: cs4 =>
    match hex4 g1 g2 g3 g4 with
    | none => none
    | some m =>
      if 56320 ≤ m && m ≤ 57343 then
        consStr (Char.ofNat (65536 + (n - 55296) * 1024 + (m - 56320))) (parseStrBody cs4)
      else none
  | _ => none
termination_by cs => cs.length

end

def digitsToNat (ds : List Char) : Nat :=
  ds.foldl (fun a c => a * 10 + (c.toNat - 48)) 0

/-- The number scanner after the optional sign: integer digits without
leading zeros, optional fraction; an undotted literal reads as `int`, a
dotted one as `dec`. -/
def parseNumAfterSign (neg : Bool) (cs1 : List Char) : Option (Json × List Char) :=
  let ds := cs1.takeWhile Char.isDigit
  if ds.isEmpty then none
  else if ds.length > 1 && (ds.head? == some '0') then none
  else
    let iv := digitsToNat ds
    match cs1.drop ds.length with
    | '.' :: cs3 =>
      let fs := cs3.takeWhile Char.isDigit
      if fs.isEmpty then none
      else
        let a : Int := (iv * 10 ^ fs.length + digitsToNat fs : Nat)
        some (.dec (if neg then -a else a) fs.length, cs3.drop fs.length)
    | other => some (.int (if neg then -(iv : Int) else (iv : Int)), other)

/-- The number scanner: optional leading minus, then the unsigned literal. -/
def parseNumber (cs : List Char) : Option (Json × List Char) :=
  match cs with
  | '-' :: r => parseNumAfterSign true r
  | _ => parseNumAfterSign false cs

/-- Python dict update while an object literal is read: a repeated key
overwrites in place, a new key is appended. -/
def objUpd (d : List (String × Json)) (k : String) (v : Json) : List (String × Json) :=
  if d.any (fun p => p.1 == k) then d.map (fun p => if p.1 == k then (k, v) else p)
  else d ++ [(k, v)]

def objFromPairs (ps : List (String × Json)) : List (String × Json) :=
  ps.foldl (fun d p => objUpd d p.1 p.2) []

mutual

def parseVal : Nat → List Char → Option (Json × List Char)
  | 0, _ => none
  | fuel + 1, cs =>
    match skipWs cs with
    | [] => none
    | c :: rest =>
      if c = 'n' then
        match rest with
        | 'u' :: 'l' :: 'l' :: r => some (.null, r)
        | _ => none
      else if c = 't' then
        match rest with
        | 'r' :: 'u' :: 'e' :: r => some (.bool true, r)
        | _ => none
      else if c = 'f' then
        match rest with
        | 'a' :: 'l' :: 's' :: 'e' :: r => some (.bool false, r)
        | _ => none
      else if c = '"' then
        match parseStrBody rest with
        | some (s, r) => some (.str ⟨s⟩, r)
        | none => none
      else if c = '[' then
        match skipWs rest with
        | ']' :: r => some (.arr [], r)
        | _ =>
          match parseItems fuel rest with
          | some (vs, r) => some (.arr vs, r)
          | none => none
      else if c = '{' then
        match skipWs rest with
        | '}' :: r => some (.obj [], r)
        | _ =>
          match parseFields fuel rest with
          | some (ps, r) => some (.obj (objFromPairs ps), r)
          | none => none
      else if c = '-' || c.isDigit then parseNumber (c :: rest)
      else none

def parseItems : Nat → List Char → Option (List Json × List Char)
  | 0, _ => none
  | fuel + 1, cs =>
    match parseVal fuel cs with
    | none => none
    | some (v, cs1) =>
      match skipWs cs1 with
      | ',' :: cs2 =>
        match parseItems fuel cs2 with
        | some (vs, r) => some (v :: vs, r)
        | none => none
      | ']' :: cs2 => some ([v], cs2)
      | _ => none

def parseFields : Nat → List Char → Option (List (String × Json) × List Char)
  | 0, _ => none
  | fuel + 1, cs =>
    match skipWs cs with
    | '"' :: cs1 =>
      match parseStrBody cs1 with
      | none => none
      | some (k, cs2) =>
        match skipWs cs2 with
        | ':' :: cs3 =>
          match parseVal fuel cs3 with
          | none => none
          | some (v, cs4) =>
            match skipWs cs4 with
            | ',' :: cs5 =>
              match parseFields fuel cs5 with
              | some (ps, r) => some ((⟨k⟩, v) :: ps, r)
              | none => none
            | '}' :: cs5 => some ([(⟨k⟩, v)], cs5)
            | _ => none
        | _ => none
    | _ => none

end

mutual

/-- Fuel sufficient to parse one value: one unit per value plus one per
container element. -/
def jsize : Json → Nat
  | .arr xs => 1 + jsizeList xs
  | .obj kvs => 1 + jsizeFields kvs
  | .null => 1
  | .bool _ => 1
  | .int _ => 1
  | .dec _ _ => 1
  | .str _ => 1
termination_by v => sizeOf v

def jsizeList : List Json → Nat
  | [] => 0
  | x :: xs => 1 + jsize x + jsizeList xs
termination_by xs => sizeOf xs

def jsizeFields : List (String × Json) → Nat
  | [] => 0
  | (_, v) :: ps => 1 + jsize v + jsizeFields ps
termination_by ps => sizeOf ps

end

/-- What may follow a printed value: end of input, or the separator the
enclosing container prints next (a comma, or the newline before a closing
bracket).  Neither continues a number, so the greedy number scanner stops
exactly at the value boundary. -/
def NumDelim (rest : List Char) : Prop :=
  rest = [] ∨ ∃ c cs, rest = c :: cs ∧ (c = ',' ∨ c = '\n')

/-- `json.loads`: parse one value, require only whitespace after it. -/
def loads (s : String) : Option Json :=
  match parseVal (s.length + 1) s.data with
  | some (v, rest) => if (skipWs rest).isEmpty then some v else none
  | none => none

/-! ## Well-formed values and field-preserving equivalence -/

mutual

/-- Serializable values in canonical-repr form: decimals carry at least
one fraction digit and no trailing zero beyond the first (as float repr
writes them), object keys are distinct (as in any Python dict). -/
def jsonWF : Json → Bool
  | .null => true
  | .bool _ => true
  | .int _ => true
  | .dec m e => decide (1 ≤ e) && (decide (e = 1) || decide (m % 10 ≠ 0))
  | .str _ => true
  | .arr xs => jsonWFList xs
  | .obj kvs => decide ((kvs.map Prod.fst).Nodup) && jsonWFFields kvs
termination_by v => sizeOf v

def jsonWFList : List Json → Bool
  | [] => true
  | x :: xs => jsonWF x && jsonWFList xs
termination_by xs => sizeOf xs

def jsonWFFields : List (String × Json) → Bool
  | [] => true
  | (_, v) :: ps => jsonWF v && jsonWFFields ps
termination_by ps => sizeOf ps

end

mutual

/-- Two values with the same field sets and the same field values: scalars
equal, arrays pointwise equivalent, and each object a permutation of the
other's fields with equivalent (same-key) values — no field added, dropped
or altered, only reordered. -/
inductive JEquiv : Json → Json → Prop where
  | null : JEquiv .null .null
  | bool (b : Bool) : JEquiv (.bool b) (.bool b)
  | int (n : Int) : JEquiv (.int n) (.int n)
  | dec (m : Int) (e : Nat) : JEquiv (.dec m e) (.dec m e)
  | str (s : String) : JEquiv (.str s) (.str s)
  | arr (xs ys : List Json) : JEquivList xs ys → JEquiv (.arr xs) (.arr ys)
  | obj (a b c : List (String × Json)) :
      JEquivFields a c → c.Perm b → JEquiv (.obj a) (.obj b)

/-- Pointwise equivalence of array elements. -/
inductive JEquivList : List Json → List Json → Prop where
  | nil : JEquivList [] []
  | cons {x y : Json} {xs ys : List Json} :
      JEquiv x y → JEquivList xs ys → JEquivList (x :: xs) (y :: ys)

/-- Pointwise equivalence of field lists: same keys in the same order,
equivalent values. -/
inductive JEquivFields : List (String × Json) → List (String × Json) → Prop where
  | nil : JEquivFields [] []
  | cons (k : String) {v w : Json} {ps qs : List (String × Json)} :
      JEquiv v w → JEquivFields ps qs → JEquivFields ((k, v) :: ps) ((k, w) :: qs)

end

/-! ## Fetch Cache (`cache_wrapper`) -/

/-- The persistence collaborator: logical path to stored text. -/
abbrev FS := List (String × String)

def FS.read (fs : FS) (p : String) : Option String := dictGet fs p

def FS.write (fs : FS) (p : String) (content : String) : FS := dictSet fs p content

/-- A payload moving through the cache: raw page text, or a structured
value for a `.json` key. -/
inductive CacheVal where
  | text (s : String)
  | json (j : Json)

def CacheVal.toJson : CacheVal → Json
  | .text s => .str s
  | .json j => j

/-- The read branch of the wrapper: file contents, passed through
`json.loads` when the key's extension is `.json`. -/
def deserializeAt (fname content : String) : Except PyErr CacheVal :=
  if pySplitextExt fname = ".json" then
    match loads content with
    | some j => .ok (.json j)
    | none => .error .jsonDecodeError
  else .ok (.text content)

/-- `cache_wrapper(fname, use_cache)` applied to a producer, over the file
system `fs`.  Result: the returned value, the file system afterwards, and
whether the producer ran.  With `use_cache` and an existing file the
stored text is returned (deserialized for a `.json` key) and the producer
does not run; otherwise the producer runs and its result is persisted
exactly when `use_cache` is set (serializing for a `.json` key, and
failing the raw write of a non-text value as `fobj.write` would). -/
def cache_wrapper (fname : String) (use_cache : Bool)
    (producer : Unit → CacheVal) (fs : FS) :
    Except PyErr (CacheVal × FS × Bool) :=
  match (if use_cache then FS.read fs fname else none) with
  | some content =>
      match deserializeAt fname content with
      | .ok v => .ok (v, fs, false)
      | .error e => .error e
  | none =>
      let v := producer ()
      let storeVal : CacheVal :=
        if pySplitextExt fname = ".json" then .text (dumps v.toJson) else v
      if use_cache then
        match storeVal with
        | .text s => .ok (v, FS.write fs fname s, true)
        | .json _ => .error .typeError
      else .ok (v, fs, true)

end Runcity

namespace Runcity

/-! # Theorems -/

@[simp] theorem exceptMap_ok {ε α β : Type _} (f : α → β) (a : α) :
    Except.map f (Except.ok a : Except ε α) = Except.ok (f a) := rfl

@[simp] theorem exceptMap_error {ε α β : Type _} (f : α → β) (e : ε) :
    Except.map f (Except.error e : Except ε α) = Except.error e := rfl

/-- The state-machine run of the LinkParser agrees with the denotational
description `linkPairs`: from any state, the final collection is the pairs
already collected followed by one pair per text node seen while a link is
active. -/
theorem LinkParser.run_linkPairs (evs : List HtmlEvent) : ∀ (s : LinkState),
    (LinkParser.run s evs).map LinkState.links =
      (linkPairs s.in_link evs).map (fun ps => s.links ++ ps) := by
  induction evs with
  | nil => intro s; simp [LinkParser.run, linkPairs]
  | cons e evs ih =>
    intro s
    cases e with
    | startTag t attrs =>
      by_cases ht : t = "a"
      · subst ht
        cases hh : pyDictGet attrs "href" with
        | some h =>
          simpa [LinkParser.run, LinkParser.step, LinkParser.handle_starttag, hh,
            linkPairs] using ih { s with in_link := some h }
        | none =>
          simp [LinkParser.run, LinkParser.step, LinkParser.handle_starttag, hh,
            linkPairs]
      · simpa [LinkParser.run, LinkParser.step, LinkParser.handle_starttag, ht,
          linkPairs] using ih s
    | endTag t =>
      by_cases ht : t = "a"
      · subst ht
        simpa [LinkParser.run, LinkParser.step, LinkParser.handle_endtag,
          linkPairs] using ih { s with in_link := none }
      · simpa [LinkParser.run, LinkParser.step, LinkParser.handle_endtag, ht,
          linkPairs] using ih s
    | dataEvt d =>
      cases hl : s.in_link with
      | some l =>
        have h2 := ih { s with links := s.links ++ [(l, pyStrip d)] }
        simp [LinkParser.run, LinkParser.step, LinkParser.handle_data, hl,
          linkPairs] at h2 ⊢
        cases hres : linkPairs (some l) evs with
        | ok ps => simp [hres] at h2 ⊢; simp [h2]
        | error err => simp [hres] at h2 ⊢; exact h2
      | none =>
        simpa [LinkParser.run, LinkParser.step, LinkParser.handle_data, hl,
          linkPairs] using ih s

/-- C1 counterexample: for the input `<a href="/x">Hello <b>World</b></a>`
the Link Extractor collects two pairs — one per text node — not the single
merged pair `("/x", "Hello World")` the claim states. -/
theorem linkParser_example_not_merged :
    processLink exampleAnchorEvents = .ok [("/x", "Hello"), ("/x", "World")] ∧
    processLink exampleAnchorEvents ≠ .ok [("/x", "Hello World")] := by
  refine ⟨by rfl, fun h => ?_⟩
  have h2 : (.ok [("/x", "Hello"), ("/x", "World")] :
      Except PyErr (List (String × String))) = .ok [("/x", "Hello World")] :=
    (by rfl : processLink exampleAnchorEvents =
      .ok [("/x", "Hello"), ("/x", "World")]).symm.trans h
  simp at h2

/-- C1 amended: the Link Extractor collects one `(link, text)` pair per
text node seen while an anchor is active — each pair's text is that node's
own trimmed text, pairs are never merged across a span — so the input
`<a href="/x">Hello <b>World</b></a>` yields the two pairs
`("/x", "Hello")` and `("/x", "World")`. -/
theorem linkParser_pair_per_text_node :
    (∀ evs, processLink evs = linkPairs none evs) ∧
    processLink exampleAnchorEvents = .ok [("/x", "Hello"), ("/x", "World")] := by
  refine ⟨fun evs => ?_, by rfl⟩
  have h := LinkParser.run_linkPairs evs LinkState.init
  rw [processLink]
  refine h.trans ?_
  show Except.map (fun ps => [] ++ ps) (linkPairs none evs) = linkPairs none evs
  cases linkPairs none evs <;> rfl

/-- C10: an input whose route-list container opens with an abbreviation
element before any entry crashes the Route Extractor with an exception (the
modelled IndexError of `self.routes[-1]` on an empty record list) instead
of returning a record sequence. -/
theorem routeParser_abbr_before_entry_crashes :
    processRoute abbrBeforeEntryEvents = .error .indexError := by rfl

/-- C3 counterexample: after `<dl class="route"><dt id="r1"></dt>` the
extractor is outside any entry (`in_id` is false) with the gate open, yet
the abbreviation start event still writes its classification/display-value
attributes onto the last-appended record. -/
theorem routeParser_abbr_outside_entry_modifies :
    RouteParser.run RouteState.init entryClosedEvents = .ok entryClosedState ∧
    entryClosedState.in_id = false ∧
    RouteParser.step entryClosedState abbrLatEvent =
      .ok { entryClosedState with routes := [[("id", "r1"), ("latitude", "55.7")]] } ∧
    [[("id", "r1"), ("latitude", "55.7")]] ≠ entryClosedState.routes := by
  refine ⟨by rfl, by rfl, by rfl, fun h => ?_⟩
  simp [entryClosedState] at h

/-- C3 amended: whenever the route-list gate is open and at least one
record exists, an abbreviation start event stores
`record[classification] = display_value` on the last-appended record,
regardless of whether the extractor is inside an entry (the entry-id flag
is not consulted); with the gate open and no record yet, the same event
raises an exception instead. -/
theorem routeParser_abbr_sets_last_record (s : RouteState)
    (attrs : List (String × String)) (c t : String)
    (hin : s.in_routes = true) (hc : pyDictGet attrs "class" = some c)
    (ht : pyDictGet attrs "title" = some t) :
    (∀ rs r, s.routes = rs ++ [r] →
      RouteParser.step s (.startTag "abbr" attrs) =
        .ok { s with routes := rs ++ [dictSet r c t] }) ∧
    (s.routes = [] →
      RouteParser.step s (.startTag "abbr" attrs) = .error .indexError) := by
  constructor
  · intro rs r hr
    simp [RouteParser.step, RouteParser.handle_starttag, hin, hc, ht, hr,
      setLastField]
  · intro hr
    simp [RouteParser.step, RouteParser.handle_starttag, hin, hc, ht, hr,
      setLastField]

/-- Closed witness for the amended C3 theorem, at the concrete state
reached after `<dl class="route"><dt id="r1"></dt>`. -/
theorem routeParser_abbr_sets_last_record_witness :
    RouteParser.step entryClosedState abbrLatEvent =
      .ok { entryClosedState with routes := [[("id", "r1"), ("latitude", "55.7")]] } := by
  have h := (routeParser_abbr_sets_last_record entryClosedState
    [("class", "latitude"), ("title", "55.7")] "latitude" "55.7"
    (by rfl) (by rfl) (by rfl)).1 [] [("id", "r1")] (by rfl)
  simpa [dictSet] using h

@[simp] theorem exceptBind_ok {ε α β : Type _} (f : α → Except ε β) (a : α) :
    ((Except.ok a : Except ε α) >>= f) = f a := rfl

@[simp] theorem exceptBind_error {ε α β : Type _} (f : α → Except ε β) (e : ε) :
    ((Except.error e : Except ε α) >>= f) = Except.error e := rfl

@[simp] theorem exceptPure_eq {ε α : Type _} (a : α) :
    (pure a : Except ε α) = Except.ok a := rfl

theorem findRouteLink_eq_none {pairs : List (String × String)}
    (h : ∀ p ∈ pairs, pyStrip p.2 ∉ routeLabels) : findRouteLink pairs = none := by
  induction pairs with
  | nil => rfl
  | cons p ps ih =>
    obtain ⟨link, d⟩ := p
    rw [findRouteLink, if_neg (h (link, d) (List.mem_cons_self _ _))]
    exact ih fun q hq => h q (List.mem_cons_of_mem _ hq)

theorem findRouteLink_first {pre : List (String × String)} {link d : String}
    (post : List (String × String)) (hpre : ∀ p ∈ pre, pyStrip p.2 ∉ routeLabels)
    (hd : pyStrip d ∈ routeLabels) :
    findRouteLink (pre ++ (link, d) :: post) = some link := by
  induction pre with
  | nil => rw [List.nil_append, findRouteLink, if_pos hd]
  | cons p ps ih =>
    obtain ⟨l2, d2⟩ := p
    rw [List.cons_append, findRouteLink,
      if_neg (hpre (l2, d2) (List.mem_cons_self _ _))]
    exact ih fun q hq => hpre q (List.mem_cons_of_mem _ hq)

/-- C6: when no link on the event page matches a routes-section label, the
Resolver neither raises nor keeps records — an allowlisted event id yields
the empty result with nothing logged, and every other id yields the empty
result with exactly the extraction-gap error logged. -/
theorem parse_event_no_routes_section (uj : String → String → String)
    (pf : String → Option Rat) (eventId eventUrl : String)
    (mainEvents routesEvents : List HtmlEvent) (pairs : List (String × String))
    (hl : processLink mainEvents = .ok pairs)
    (hnm : ∀ p ∈ pairs, pyStrip p.2 ∉ routeLabels) :
    (eventId ∈ NO_ROUTE_GAMES →
      parse_event uj pf eventId eventUrl mainEvents routesEvents =
        .ok { logs := [], result := .noRoutes }) ∧
    (eventId ∉ NO_ROUTE_GAMES →
      parse_event uj pf eventId eventUrl mainEvents routesEvents =
        .ok { logs := [noRoutesMsg eventId eventUrl],
              result := .noRoutes }) := by
  constructor <;> intro hmem <;>
    simp [parse_event, hl, findRouteLink_eq_none hnm, hmem]

/-- Closed witness for the C6 theorem: the allowlisted id `vdnh` and the
unallowlisted id `ev2024`, both on a page whose only link is
`<a href="/about/">О проекте</a>`. -/
theorem parse_event_no_routes_section_witness :
    (parse_event ujAppend pyFloatSimple "vdnh" evUrl noMatchMainEvents [] =
      .ok { logs := [], result := .noRoutes }) ∧
    (parse_event ujAppend pyFloatSimple "ev2024" evUrl noMatchMainEvents [] =
      .ok { logs := [noRoutesMsg "ev2024" evUrl], result := .noRoutes }) :=
  ⟨(parse_event_no_routes_section ujAppend pyFloatSimple "vdnh" evUrl
      noMatchMainEvents [] [("/about/", "О проекте")] (by rfl)
      (by decide)).1 (by decide),
   (parse_event_no_routes_section ujAppend pyFloatSimple "ev2024" evUrl
      noMatchMainEvents [] [("/about/", "О проекте")] (by rfl)
      (by decide)).2 (by decide)⟩

/-- C9: when the first label-matching link, resolved against the event URL
and suffixed with `all/`, differs from the canonical all-routes URL
computed from the event URL alone, the Resolver fails with the assertion
error instead of proceeding with the discovered link. -/
theorem parse_event_assert_mismatch_fatal (uj : String → String → String)
    (pf : String → Option Rat) (eventId eventUrl : String)
    (mainEvents routesEvents : List HtmlEvent)
    (pre post : List (String × String)) (link d : String)
    (hl : processLink mainEvents = .ok (pre ++ (link, d) :: post))
    (hpre : ∀ p ∈ pre, pyStrip p.2 ∉ routeLabels)
    (hd : pyStrip d ∈ routeLabels)
    (hmis : uj eventUrl link ++ "all/" ≠ uj eventUrl "routes/all/") :
    parse_event uj pf eventId eventUrl mainEvents routesEvents =
      .error .assertionError := by
  simp [parse_event, hl, findRouteLink_first post hpre hd, hmis]

/-- Closed witness for the C9 theorem: the label `Маршруты` on
`<a href="wrong/">`, whose resolution plus `all/` is not the canonical
all-routes URL. -/
theorem parse_event_assert_mismatch_fatal_witness :
    parse_event ujAppend pyFloatSimple "ev2024" evUrl mismatchMainEvents [] =
      .error .assertionError :=
  parse_event_assert_mismatch_fatal ujAppend pyFloatSimple "ev2024" evUrl
    mismatchMainEvents [] [] [] "wrong/" "Маршруты" (by rfl)
    (by decide) (by decide) (by decide)

theorem dictGet_eq_none_of_dictHas_false {d : List (String × String)}
    {k : String} (h : dictHas d k = false) : dictGet d k = none := by
  rw [dictHas] at h
  rw [dictGet, List.filter_eq_nil_iff.mpr (List.any_eq_false.mp h)]
  rfl

/-- C2 counterexample: a raw record carrying a latitude but no longitude is
not discarded — the Resolver raises the modelled KeyError for `longitude`
and the run aborts.  The second conjunct exhibits the raw record the Route
Extractor produced: it has `latitude` and lacks `longitude`. -/
theorem parse_event_single_coordinate_crashes :
    parse_event ujAppend pyFloatSimple "ev2024" evUrl matchingMainEvents
      latOnlyRoutesEvents = .error (.keyError "longitude") ∧
    processRoute latOnlyRoutesEvents = .ok [[("id", "r1"), ("latitude", "55.7")]] :=
  ⟨by rfl, by rfl⟩

theorem dictGet_isSome_of_dictHas {d : List (String × String)}
    {k : String} (h : dictHas d k = true) : ∃ s, dictGet d k = some s := by
  rw [dictHas, List.any_eq_true] at h
  obtain ⟨p, hp, hpk⟩ := h
  rw [dictGet]
  cases hf : d.filter (fun q => q.1 == k) with
  | nil =>
      have := List.filter_eq_nil_iff.mp hf p hp
      exact absurd hpk (by simpa using this)
  | cons a as => exact ⟨a.2, by simp⟩

/-- C2 amended: the Resolver discards a raw record silently only when
**both** coordinates are absent (processing continues with the remaining
records); in every other case the record is not silently excluded.  With
longitude absent and latitude present the conversion raises KeyError for
`longitude`; with latitude absent and longitude present it raises KeyError
for `latitude` once the longitude text converts, and ValueError when that
conversion itself fails; and with both coordinates present the record is
either kept (prepended to the surviving rest) or the run aborts with an
error — never dropped. -/
theorem processItems_single_coordinate (pf : String → Option Rat)
    (uj : String → String → String) (base : String)
    (item : List (String × String)) (rest : List (List (String × String))) :
    (dictHas item "longitude" = false → dictHas item "latitude" = false →
      processItems pf uj base (item :: rest) = processItems pf uj base rest) ∧
    (dictHas item "longitude" = false → dictHas item "latitude" = true →
      processItems pf uj base (item :: rest) = .error (.keyError "longitude")) ∧
    (∀ s, dictHas item "latitude" = false → dictGet item "longitude" = some s →
      processItems pf uj base (item :: rest) =
        .error (match pf s with
          | some _ => PyErr.keyError "latitude"
          | none => PyErr.valueError)) ∧
    (dictHas item "longitude" = true → dictHas item "latitude" = true →
      (∃ e, processItems pf uj base (item :: rest) = .error e) ∨
      (∃ item' kept, processItems pf uj base (item :: rest) = .ok (item' :: kept) ∧
        processItems pf uj base rest = .ok kept)) := by
  refine ⟨?_, ?_, ?_, ?_⟩
  · intro hlon hlat
    simp [processItems, hlon, hlat]
  · intro hlon hlat
    simp [processItems, hlon, hlat, dictGet_eq_none_of_dictHas_false hlon]
  · intro s hlat hlon
    have hlonT : dictHas item "longitude" = true := by
      cases h : dictHas item "longitude"
      · rw [dictGet_eq_none_of_dictHas_false h] at hlon; cases hlon
      · rfl
    have hlatN : dictGet item "latitude" = none := dictGet_eq_none_of_dictHas_false hlat
    cases hpf : pf s
    · simp [processItems, hlonT, hlat, hlon, hpf]
    · simp [processItems, hlonT, hlat, hlon, hpf, hlatN]
  · intro hlon hlat
    obtain ⟨s, hs⟩ := dictGet_isSome_of_dictHas hlon
    obtain ⟨t, ht⟩ := dictGet_isSome_of_dictHas hlat
    cases hpf : pf s with
    | none => exact Or.inl ⟨.valueError, by simp [processItems, hlon, hlat, hs, hpf]⟩
    | some q =>
      cases hpft : pf t with
      | none =>
          exact Or.inl ⟨.valueError, by simp [processItems, hlon, hlat, hs, hpf, ht, hpft]⟩
      | some r =>
        cases hlink : dictGet item "link" with
        | none =>
            exact Or.inl ⟨.keyError "link",
              by simp [processItems, hlon, hlat, hs, hpf, ht, hpft, hlink]⟩
        | some link =>
          cases hrest : processItems pf uj base rest with
          | error e =>
              refine Or.inl ⟨e, ?_⟩
              simp [processItems, hlon, hlat, hs, hpf, ht, hpft, hlink, hrest]
          | ok kept =>
              refine Or.inr ?_
              simp only [processItems, hlon, hlat, hs, hpf, ht, hpft, hlink, hrest,
                exceptBind_ok, exceptPure_eq, Bool.not_true, Bool.false_and,
                Bool.false_eq_true, if_false, Except.ok.injEq]
              exact ⟨_, kept, rfl, rfl⟩

/-- Closed witness for the amended C2 theorem: a record with only an `id`
is dropped, a record with a latitude but no longitude raises KeyError for
`longitude`, and a record with a longitude but no latitude raises KeyError
for `latitude`. -/
theorem processItems_single_coordinate_witness :
    (processItems pyFloatSimple ujAppend "b" [[("id", "r0")]] = .ok []) ∧
    (processItems pyFloatSimple ujAppend "b"
      [[("id", "r1"), ("latitude", "55.7")]] = .error (.keyError "longitude")) ∧
    (processItems pyFloatSimple ujAppend "b"
      [[("id", "r2"), ("longitude", "37.6")]] = .error (.keyError "latitude")) :=
  ⟨(processItems_single_coordinate pyFloatSimple ujAppend "b" [("id", "r0")] []).1
      (by decide) (by decide),
   (processItems_single_coordinate pyFloatSimple ujAppend "b"
      [("id", "r1"), ("latitude", "55.7")] []).2.1 (by decide) (by decide),
   (processItems_single_coordinate pyFloatSimple ujAppend "b"
      [("id", "r2"), ("longitude", "37.6")] []).2.2.1 "37.6" (by decide) (by rfl)⟩

/-- C7: the Event Catalog Builder's output is exactly the reverse of the
surviving pairs in extraction order — entry `i` of the catalog is built
from surviving pair `n - 1 - i` — so an index listed newest-first comes
out oldest-first. -/
theorem get_events_reverses_extraction (uj : String → String → String)
    (ex : String → Bool) (archiveUrl : String) (evs : List HtmlEvent)
    (pairs : List (String × String)) (out : List Event)
    (hl : processLink evs = .ok pairs)
    (hout : get_events uj ex archiveUrl evs = .ok out) :
    out.length = (pairs.filter keepPair).length ∧
    ∀ i, i < out.length →
      out[i]? = ((pairs.filter keepPair)[(pairs.filter keepPair).length - 1 - i]?).map
        (mkEvent uj ex archiveUrl) := by
  rw [get_events, hl] at hout
  simp only [exceptBind_ok, exceptPure_eq, Except.ok.injEq] at hout
  subst hout
  refine ⟨by simp, fun i hi => ?_⟩
  have hi2 : i < ((pairs.filter keepPair).map (mkEvent uj ex archiveUrl)).length := by
    simpa using hi
  rw [List.getElem?_reverse hi2, List.getElem?_map, List.length_map]

/-- Closed witness for the C7 theorem: a two-event archive page listed
newest-first yields the catalog oldest-first (position 0 holds the page's
second anchor). -/
theorem get_events_reverses_extraction_witness :
    get_events ujAppend (fun _ => false) c7ArchiveUrl c7ArchiveEvents = .ok c7Out ∧
    c7Out[0]? = some (mkEvent ujAppend (fun _ => false) c7ArchiveUrl
      ("/ru/events/spb2022/", "Бегущий Город Петербург")) := by
  refine ⟨by rfl, ?_⟩
  have h := (get_events_reverses_extraction ujAppend (fun _ => false)
    c7ArchiveUrl c7ArchiveEvents c7Pairs c7Out (by rfl) (by rfl)).2 0 (by decide)
  exact h.trans (by rfl)

theorem except_bind_ok_inv {ε α β : Type _} {x : Except ε α}
    {g : α → Except ε β} {b : β} (h : (x >>= g) = .ok b) :
    ∃ a, x = .ok a ∧ g a = .ok b := by
  cases x with
  | ok a => exact ⟨a, rfl, h⟩
  | error e => exact absurd h (by simp)

/-- A successfully built feature carries the id it was given — the current
`len(features)`. -/
theorem mkFeature_id (pf : String → Option Rat) (n : Nat) (t : String)
    (item : List (String × PyVal)) (f : GeoFeature)
    (h : mkFeature pf n t item = .ok f) : f.id = n := by
  unfold mkFeature at h
  obtain ⟨lat, -, h⟩ := except_bind_ok_inv h
  obtain ⟨lon, -, h⟩ := except_bind_ok_inv h
  obtain ⟨ti, -, h⟩ := except_bind_ok_inv h
  obtain ⟨de, -, h⟩ := except_bind_ok_inv h
  obtain ⟨u, -, h⟩ := except_bind_ok_inv h
  cases h
  rfl

theorem featLoop_ids (pf : String → Option Rat) (t : String) :
    ∀ (items : List (List (String × PyVal))) (fs res : List GeoFeature),
      featLoop pf t fs items = .ok res →
      fs.map GeoFeature.id = List.range fs.length →
      res.map GeoFeature.id = List.range res.length ∧
        res.length = fs.length + items.length := by
  intro items
  induction items with
  | nil =>
    intro fs res h hids
    cases h
    exact ⟨hids, by simp⟩
  | cons item items ih =>
    intro fs res h hids
    rw [featLoop] at h
    cases hm : mkFeature pf fs.length t item with
    | error e => rw [hm] at h; exact absurd h (by simp)
    | ok f =>
      rw [hm] at h
      have hid := mkFeature_id pf fs.length t item f hm
      have hinv : (fs ++ [f]).map GeoFeature.id = List.range (fs ++ [f]).length := by
        simp [hids, hid, List.range_succ]
      obtain ⟨h1, h2⟩ := ih (fs ++ [f]) res h hinv
      refine ⟨h1, ?_⟩
      rw [h2]
      simp
      omega

theorem updateEventsAux_ids (pf : String → Option Rat) :
    ∀ (evs : List (String × List (List (String × PyVal))))
      (acc res : List GeoFeature),
      updateEventsAux pf acc evs = .ok res →
      acc.map GeoFeature.id = List.range acc.length →
      res.map GeoFeature.id = List.range res.length ∧
        res.length = acc.length + (evs.map (fun e => e.2.length)).sum := by
  intro evs
  induction evs with
  | nil =>
    intro acc res h hids
    cases h
    exact ⟨hids, by simp⟩
  | cons ev evs ih =>
    intro acc res h hids
    obtain ⟨title, items⟩ := ev
    rw [updateEventsAux] at h
    obtain ⟨acc2, hL, h⟩ := except_bind_ok_inv h
    obtain ⟨hacc1, hacc2⟩ := featLoop_ids pf title items acc acc2 hL hids
    obtain ⟨h1, h2⟩ := ih acc2 res h hacc1
    refine ⟨h1, ?_⟩
    rw [h2, hacc2]
    simp
    omega

/-- C8: a successful run of the aggregation loop over N kept records in
total produces features whose ids are exactly `0, 1, ..., N-1` in
processing order — the id sequence is `List.range N` — with N the sum of
the per-event record counts, regardless of how records distribute over
events. -/
theorem update_events_sequential_ids (pf : String → Option Rat)
    (evsParsed : List (String × List (List (String × PyVal))))
    (feats : List GeoFeature)
    (hout : update_events pf evsParsed = .ok feats) :
    feats.map GeoFeature.id = List.range feats.length ∧
    feats.length = (evsParsed.map (fun e => e.2.length)).sum := by
  have h := updateEventsAux_ids pf evsParsed [] feats hout (by simp)
  simpa using h

/-- Closed witness for the C8 theorem: two events contributing two and one
records produce features with ids 0, 1, 2. -/
theorem update_events_sequential_ids_witness :
    c8Feats.map GeoFeature.id = List.range c8Feats.length ∧
    c8Feats.length = (c8Input.map (fun e => e.2.length)).sum :=
  update_events_sequential_ids pyFloatSimple c8Input c8Feats (by rfl)

/-! ## Character and digit facts for the JSON round trip -/

theorem charToNat_ofNat {n : Nat} (h : n.isValidChar) : (Char.ofNat n).toNat = n := by
  unfold Char.ofNat
  rw [dif_pos h]
  rfl

theorem char_valid_cases (c : Char) :
    c.toNat < 55296 ∨ (57343 < c.toNat ∧ c.toNat < 1114112) := by
  have h := c.valid
  unfold UInt32.isValidChar Nat.isValidChar at h
  rcases h with h | ⟨h1, h2⟩
  · left; exact h
  · right; exact ⟨h1, h2⟩

theorem char_isDigit_iff (c : Char) : c.isDigit = (48 ≤ c.toNat && c.toNat ≤ 57) := by
  unfold Char.isDigit
  simp [Char.le_def, UInt32.le_def, BitVec.le_def, Char.toNat]
  rfl

theorem digitChar_toNat {d : Nat} (h : d < 10) : (digitChar d).toNat = 48 + d :=
  charToNat_ofNat (Or.inl (by omega))

theorem digitChar_isDigit {d : Nat} (h : d < 10) : (digitChar d).isDigit = true := by
  rw [char_isDigit_iff, digitChar_toNat h]
  simp
  omega

theorem hexDigit_hexVal {d : Nat} (h : d < 16) : hexVal (hexDigit d) = some d := by
  by_cases h10 : d < 10
  · have ht : (hexDigit d).toNat = 48 + d := by
      rw [hexDigit, if_pos h10]
      exact charToNat_ofNat (Or.inl (by omega))
    rw [hexVal, ht]
    rw [if_pos (by simp; omega)]
    simp
  · have ht : (hexDigit d).toNat = 87 + d := by
      rw [hexDigit, if_neg h10]
      exact charToNat_ofNat (Or.inl (by omega))
    rw [hexVal, ht]
    rw [if_neg (by simp; omega), if_pos (by simp; omega)]
    simp

theorem natDigitsAux_eq (n : Nat) : ∀ acc, natDigitsAux n acc = natDigits n ++ acc := by
  induction n using Nat.strong_induction_on with
  | _ n ih =>
    intro acc
    by_cases h : n < 10
    · rw [natDigitsAux, if_pos h, natDigits, natDigitsAux, if_pos h]
      rfl
    · rw [natDigitsAux, if_neg h, ih (n / 10) (by omega)]
      conv_rhs => rw [natDigits, natDigitsAux, if_neg h, ih (n / 10) (by omega)]
      simp

theorem natDigits_ne_nil (n : Nat) : natDigits n ≠ [] := by
  induction n using Nat.strong_induction_on with
  | _ n ih =>
    by_cases h : n < 10
    · rw [natDigits, natDigitsAux, if_pos h]
      simp
    · rw [natDigits, natDigitsAux, if_neg h, natDigitsAux_eq]
      simp [ih (n / 10) (by omega)]

theorem natDigits_all_digits (n : Nat) : ∀ c ∈ natDigits n, c.isDigit = true := by
  induction n using Nat.strong_induction_on with
  | _ n ih =>
    by_cases h : n < 10
    · rw [natDigits, natDigitsAux, if_pos h]
      intro c hc
      rw [List.mem_singleton] at hc
      subst hc
      exact digitChar_isDigit h
    · rw [natDigits, natDigitsAux, if_neg h, natDigitsAux_eq]
      intro c hc
      rcases List.mem_append.mp hc with hc | hc
      · exact ih (n / 10) (by omega) c hc
      · rw [List.mem_singleton] at hc
        subst hc
        exact digitChar_isDigit (by omega)

theorem digitsToNat_natDigits (n : Nat) : digitsToNat (natDigits n) = n := by
  induction n using Nat.strong_induction_on with
  | _ n ih =>
    by_cases h : n < 10
    · rw [natDigits, natDigitsAux, if_pos h, digitsToNat]
      simp [digitChar_toNat h]
    · rw [natDigits, natDigitsAux, if_neg h, natDigitsAux_eq, digitsToNat,
        List.foldl_append]
      have := ih (n / 10) (by omega)
      rw [digitsToNat] at this
      rw [this]
      simp [digitChar_toNat (show n % 10 < 10 by omega)]
      omega

theorem natDigits_head_ne_zero {n : Nat} (h : n ≠ 0) :
    ∀ c, (natDigits n).head? = some c → c ≠ '0' := by
  induction n using Nat.strong_induction_on with
  | _ n ih =>
    intro c hc
    by_cases h10 : n < 10
    · rw [natDigits, natDigitsAux, if_pos h10] at hc
      simp at hc
      subst hc
      intro hz
      have h2 := congrArg Char.toNat hz
      rw [digitChar_toNat h10, show ('0' : Char).toNat = 48 from rfl] at h2
      omega
    · rw [natDigits, natDigitsAux, if_neg h10, natDigitsAux_eq] at hc
      rw [List.head?_append_of_ne_nil _ (natDigits_ne_nil (n / 10))] at hc
      exact ih (n / 10) (by omega) (by omega) c hc

theorem natPad_length (e : Nat) : ∀ n, (natPad e n).length = e := by
  induction e with
  | zero => intro n; rfl
  | succ e ih => intro n; rw [natPad]; simp [ih]

theorem natPad_all_digits (e : Nat) : ∀ n c, c ∈ natPad e n → c.isDigit = true := by
  induction e with
  | zero => intro n c hc; simp [natPad] at hc
  | succ e ih =>
    intro n c hc
    rw [natPad] at hc
    rcases List.mem_append.mp hc with hc | hc
    · exact ih (n / 10) c hc
    · rw [List.mem_singleton] at hc
      subst hc
      exact digitChar_isDigit (by omega)

theorem digitsToNat_natPad (e : Nat) : ∀ n, digitsToNat (natPad e n) = n % 10 ^ e := by
  induction e with
  | zero => intro n; simp [natPad, digitsToNat]; omega
  | succ e ih =>
    intro n
    rw [natPad, digitsToNat, List.foldl_append]
    have := ih (n / 10)
    rw [digitsToNat] at this
    rw [this]
    simp [digitChar_toNat (show n % 10 < 10 by omega)]
    rw [pow_succ, Nat.mul_comm (10 ^ e) 10, Nat.mod_mul]
    omega

/-! ## String escape round trip -/

theorem hex4_nibbles {n : Nat} (h : n < 65536) :
    hex4 (hexDigit (n / 4096 % 16)) (hexDigit (n / 256 % 16))
      (hexDigit (n / 16 % 16)) (hexDigit (n % 16)) = some n := by
  rw [hex4, hexDigit_hexVal (by omega), hexDigit_hexVal (by omega),
    hexDigit_hexVal (by omega), hexDigit_hexVal (by omega)]
  simp
  omega

set_option maxHeartbeats 1000000 in
theorem parseStrBody_quote (rest : List Char) :
    parseStrBody ('"' :: rest) = some ([], rest) := by
  simp [parseStrBody]

set_option maxHeartbeats 1000000 in
theorem parseStrBody_plain {c : Char} (h1 : ¬ c = '"') (h2 : ¬ c = '\\')
    (h3 : ¬ c.toNat < 32) {t s r} (ht : parseStrBody t = some (s, r)) :
    parseStrBody (c :: t) = some (c :: s, r) := by
  simp [parseStrBody, h1, h2, h3, ht, consStr]

set_option maxHeartbeats 1000000 in
theorem parseStrBody_esc {e d : Char} (hne : ¬ e = 'u') (he : escDecode e = some d)
    {t s r} (ht : parseStrBody t = some (s, r)) :
    parseStrBody ('\\' :: e :: t) = some (d :: s, r) := by
  simp [parseStrBody, parseStrEsc, hne, he, ht, consStr]

set_option maxHeartbeats 1000000 in
theorem parseStrBody_u {a1 a2 a3 a4 : Char} {n : Nat} (hh : hex4 a1 a2 a3 a4 = some n)
    (hs1 : ¬ (55296 ≤ n ∧ n ≤ 56319)) (hs2 : ¬ (56320 ≤ n ∧ n ≤ 57343))
    {t s r} (ht : parseStrBody t = some (s, r)) :
    parseStrBody ('\\' :: 'u' :: a1 :: a2 :: a3 :: a4 :: t) = some (Char.ofNat n :: s, r) := by
  simp [parseStrBody, parseStrEsc, parseStrU, hh, hs1, hs2, ht, consStr]

set_option maxHeartbeats 1000000 in
theorem parseStrBody_pair {a1 a2 a3 a4 b1 b2 b3 b4 : Char} {n m : Nat}
    (hh1 : hex4 a1 a2 a3 a4 = some n) (hn1 : 55296 ≤ n) (hn2 : n ≤ 56319)
    (hh2 : hex4 b1 b2 b3 b4 = some m) (hm1 : 56320 ≤ m) (hm2 : m ≤ 57343)
    {t s r} (ht : parseStrBody t = some (s, r)) :
    parseStrBody
        ('\\' :: 'u' :: a1 :: a2 :: a3 :: a4 :: '\\' :: 'u' :: b1 :: b2 :: b3 :: b4 :: t) =
      some (Char.ofNat (65536 + (n - 55296) * 1024 + (m - 56320)) :: s, r) := by
  simp [parseStrBody, parseStrEsc, parseStrU, parseStrLow, hh1, hn1, hn2, hh2,
    hm1, hm2, ht, consStr]

/-- The scanner decodes each printed escape back to the character the
printer escaped: the body of a printed string reads back exactly. -/
theorem parseStrBody_escList (cs : List Char) : ∀ rest,
    parseStrBody ((cs.map escChar).flatten ++ '"' :: rest) = some (cs, rest) := by
  induction cs with
  | nil =>
    intro rest
    simpa using parseStrBody_quote rest
  | cons c cs ih =>
    intro rest
    rw [List.map_cons, List.flatten_cons, List.append_assoc]
    have hrec := ih rest
    by_cases h1 : c = '"'
    · subst h1
      rw [show escChar '"' = ['\\', '"'] from rfl]
      exact parseStrBody_esc (by decide) (by rfl) hrec
    by_cases h2 : c = '\\'
    · subst h2
      rw [show escChar '\\' = ['\\', '\\'] from rfl]
      exact parseStrBody_esc (by decide) (by rfl) hrec
    by_cases h3 : c.toNat = 8
    · have he : escChar c = ['\\', 'b'] := by rw [escChar]; simp [h1, h2, h3]
      have hc : Char.ofNat 8 = c := by rw [← h3, Char.ofNat_toNat]
      rw [he]
      exact hc ▸ parseStrBody_esc (by decide) (by rfl) hrec
    by_cases h4 : c.toNat = 9
    · have he : escChar c = ['\\', 't'] := by rw [escChar]; simp [h1, h2, h3, h4]
      have hc : Char.ofNat 9 = c := by rw [← h4, Char.ofNat_toNat]
      rw [he]
      exact hc ▸ parseStrBody_esc (by decide) (by rfl) hrec
    by_cases h5 : c.toNat = 10
    · have he : escChar c = ['\\', 'n'] := by rw [escChar]; simp [h1, h2, h3, h4, h5]
      have hc : Char.ofNat 10 = c := by rw [← h5, Char.ofNat_toNat]
      rw [he]
      exact hc ▸ parseStrBody_esc (by decide) (by rfl) hrec
    by_cases h6 : c.toNat = 12
    · have he : escChar c = ['\\', 'f'] := by rw [escChar]; simp [h1, h2, h3, h4, h5, h6]
      have hc : Char.ofNat 12 = c := by rw [← h6, Char.ofNat_toNat]
      rw [he]
      exact hc ▸ parseStrBody_esc (by decide) (by rfl) hrec
    by_cases h7 : c.toNat = 13
    · have he : escChar c = ['\\', 'r'] := by
        rw [escChar]; simp [h1, h2, h3, h4, h5, h6, h7]
      have hc : Char.ofNat 13 = c := by rw [← h7, Char.ofNat_toNat]
      rw [he]
      exact hc ▸ parseStrBody_esc (by decide) (by rfl) hrec
    by_cases h9 : 32 ≤ c.toNat ∧ c.toNat ≤ 126
    · have he : escChar c = [c] := by
        rw [escChar, if_neg h1, if_neg h2, if_neg h3, if_neg h4, if_neg h5,
          if_neg h6, if_neg h7, if_pos (by simp; omega)]
      rw [he, List.singleton_append]
      exact parseStrBody_plain h1 h2 (by omega) hrec
    by_cases h10 : c.toNat < 65536
    · have hs1 : ¬ (55296 ≤ c.toNat ∧ c.toNat ≤ 56319) := by
        rcases char_valid_cases c with hv | hv <;> omega
      have hs2 : ¬ (56320 ≤ c.toNat ∧ c.toNat ≤ 57343) := by
        rcases char_valid_cases c with hv | hv <;> omega
      have he : escChar c = uEsc c.toNat := by
        rw [escChar, if_neg h1, if_neg h2, if_neg h3, if_neg h4, if_neg h5,
          if_neg h6, if_neg h7, if_neg (by simp; omega), if_pos h10]
      rw [he, uEsc]
      have h := parseStrBody_u (hex4_nibbles h10) hs1 hs2 hrec
      rw [Char.ofNat_toNat] at h
      exact h
    · have hv : c.toNat < 1114112 := by
        rcases char_valid_cases c with hv | hv <;> omega
      have hhi : 55296 + (c.toNat - 65536) / 1024 < 65536 := by omega
      have hlo : 56320 + (c.toNat - 65536) % 1024 < 65536 := by omega
      have he : escChar c =
          uEsc (55296 + (c.toNat - 65536) / 1024) ++
            uEsc (56320 + (c.toNat - 65536) % 1024) := by
        rw [escChar, if_neg h1, if_neg h2, if_neg h3, if_neg h4, if_neg h5,
          if_neg h6, if_neg h7, if_neg (by simp; omega), if_neg h10]
      rw [he, List.append_assoc]
      conv_lhs => rw [uEsc, uEsc]
      have h := parseStrBody_pair (hex4_nibbles hhi) (by omega) (by omega)
        (hex4_nibbles hlo) (by omega) (by omega) hrec
      have harith :
          65536 + (55296 + (c.toNat - 65536) / 1024 - 55296) * 1024 +
            (56320 + (c.toNat - 65536) % 1024 - 56320) = c.toNat := by omega
      rw [harith, Char.ofNat_toNat] at h
      exact h

/-- The same statement phrased with the printer abbreviation. -/
theorem parseStrBody_escList2 (s : String) (rest : List Char) :
    parseStrBody (escList s ++ '"' :: rest) = some (s.data, rest) :=
  parseStrBody_escList s.data rest

/-! ## Number round trip and whitespace -/

theorem takeWhile_all_append {p : Char → Bool} {l1 : List Char} (l2 : List Char)
    (h : ∀ c ∈ l1, p c = true) :
    (l1 ++ l2).takeWhile p = l1 ++ l2.takeWhile p := by
  induction l1 with
  | nil => rfl
  | cons a as ih =>
    rw [List.cons_append, List.takeWhile_cons, h a (List.mem_cons_self a as)]
    have := ih fun c hc => h c (List.mem_cons_of_mem _ hc)
    simp [this]

theorem natDigits_no_leading_zero (a : Nat) :
    ((decide ((natDigits a).length > 1)) && ((natDigits a).head? == some '0')) = false := by
  by_cases h : a = 0
  · subst h
    have h0 : natDigits 0 = ['0'] := by
      rw [natDigits, natDigitsAux, if_pos (by omega)]
      rfl
    simp [h0]
  · cases hd : (natDigits a).head? with
    | none => simp
    | some c =>
      have := natDigits_head_ne_zero h c hd
      simp [this]

theorem parseNumAfterSign_int (a : Nat) (neg : Bool) {rest : List Char}
    (h1 : rest.takeWhile Char.isDigit = []) (h2 : rest.head? ≠ some '.') :
    parseNumAfterSign neg (natDigits a ++ rest) =
      some (.int (if neg then -(a : Int) else (a : Int)), rest) := by
  have htw : (natDigits a ++ rest).takeWhile Char.isDigit = natDigits a := by
    rw [takeWhile_all_append rest (natDigits_all_digits a), h1, List.append_nil]
  have hdr : (natDigits a ++ rest).drop (natDigits a).length = rest :=
    List.drop_left _ _
  rw [parseNumAfterSign]
  simp only [htw, hdr, digitsToNat_natDigits]
  rw [if_neg (by simp [natDigits_ne_nil a]),
    if_neg (by simp only [natDigits_no_leading_zero a]; exact Bool.false_ne_true)]
  cases rest with
  | nil => rfl
  | cons c cs =>
    have hc : ¬ c = '.' := fun h => h2 (by rw [h]; rfl)
    split
    · rename_i cs3 heq
      injection heq with hh _
      exact absurd hh hc
    · rfl

theorem parseNumAfterSign_dec (aAbs e : Nat) (he : 1 ≤ e) (neg : Bool)
    {rest : List Char} (h1 : rest.takeWhile Char.isDigit = []) :
    parseNumAfterSign neg
      (natDigits (aAbs / 10 ^ e) ++ '.' :: (natPad e (aAbs % 10 ^ e) ++ rest)) =
      some (.dec (if neg then -(aAbs : Int) else (aAbs : Int)) e, rest) := by
  have hdot : ('.' :: (natPad e (aAbs % 10 ^ e) ++ rest)).takeWhile Char.isDigit = [] := by
    rw [List.takeWhile_cons]
    simp [show ('.' : Char).isDigit = false from rfl]
  have htw : (natDigits (aAbs / 10 ^ e) ++ '.' :: (natPad e (aAbs % 10 ^ e) ++ rest)).takeWhile
      Char.isDigit = natDigits (aAbs / 10 ^ e) := by
    rw [takeWhile_all_append _ (natDigits_all_digits _), hdot, List.append_nil]
  have hdr : (natDigits (aAbs / 10 ^ e) ++ '.' :: (natPad e (aAbs % 10 ^ e) ++ rest)).drop
      (natDigits (aAbs / 10 ^ e)).length = '.' :: (natPad e (aAbs % 10 ^ e) ++ rest) :=
    List.drop_left _ _
  have hfs : (natPad e (aAbs % 10 ^ e) ++ rest).takeWhile Char.isDigit =
      natPad e (aAbs % 10 ^ e) := by
    rw [takeWhile_all_append _ (natPad_all_digits e (aAbs % 10 ^ e)), h1, List.append_nil]
  have hfd : (natPad e (aAbs % 10 ^ e) ++ rest).drop e = rest := by
    have h := List.drop_left (natPad e (aAbs % 10 ^ e)) rest
    rwa [natPad_length] at h
  have hne : natPad e (aAbs % 10 ^ e) ≠ [] := by
    intro h
    have := natPad_length e (aAbs % 10 ^ e)
    rw [h] at this
    simp at this
    omega
  rw [parseNumAfterSign]
  simp only [htw, hdr, hfs, hfd, digitsToNat_natDigits, digitsToNat_natPad,
    natPad_length]
  rw [if_neg (by simp [natDigits_ne_nil]),
    if_neg (by simp only [natDigits_no_leading_zero]; exact Bool.false_ne_true),
    if_neg (by simp [hne])]
  have hval : aAbs / 10 ^ e * 10 ^ e + aAbs % 10 ^ e % 10 ^ e = aAbs := by
    rw [Nat.mod_mod_of_dvd _ (dvd_refl (10 ^ e)), Nat.mul_comm]
    exact Nat.div_add_mod aAbs (10 ^ e)
  rw [hval]

theorem parseNumber_intChars (n : Int) {rest : List Char}
    (h1 : rest.takeWhile Char.isDigit = []) (h2 : rest.head? ≠ some '.') :
    parseNumber (intChars n ++ rest) = some (.int n, rest) := by
  by_cases hn : n < 0
  · rw [intChars, if_pos hn, List.cons_append,
      show ∀ r, parseNumber ('-' :: r) = parseNumAfterSign true r from fun r => rfl,
      parseNumAfterSign_int n.natAbs true h1 h2]
    have : -(n.natAbs : Int) = n := by omega
    rw [if_pos rfl, this]
  · rw [intChars, if_neg hn]
    obtain ⟨d, ds2, hds⟩ := List.exists_cons_of_ne_nil (natDigits_ne_nil n.natAbs)
    have hdd := natDigits_all_digits n.natAbs d (by rw [hds]; exact List.mem_cons_self _ _)
    have hdm : ¬ d = '-' := by
      intro h
      rw [char_isDigit_iff, h, show ('-' : Char).toNat = 45 from rfl] at hdd
      simp at hdd
    rw [hds, List.cons_append, parseNumber.eq_def]
    split
    · rename_i r heq
      injection heq with hh _
      exact absurd hh hdm
    · rw [← List.cons_append, ← hds, parseNumAfterSign_int n.natAbs false h1 h2]
      have : (n.natAbs : Int) = n := by omega
      rw [if_neg (by simp), this]

theorem parseNumber_decChars (m : Int) (e : Nat) (he : 1 ≤ e) {rest : List Char}
    (h1 : rest.takeWhile Char.isDigit = []) :
    parseNumber (decChars m e ++ rest) = some (.dec m e, rest) := by
  by_cases hm : m < 0
  · rw [decChars]
    simp only [if_pos hm, List.append_assoc, List.cons_append, List.singleton_append,
      List.nil_append]
    rw [show ∀ r, parseNumber ('-' :: r) = parseNumAfterSign true r from fun r => rfl,
      parseNumAfterSign_dec m.natAbs e he true h1]
    have : -(m.natAbs : Int) = m := by omega
    rw [if_pos rfl, this]
  · rw [decChars]
    simp only [if_neg hm, List.append_assoc, List.cons_append, List.singleton_append,
      List.nil_append]
    obtain ⟨d, ds2, hds⟩ := List.exists_cons_of_ne_nil (natDigits_ne_nil (m.natAbs / 10 ^ e))
    have hdd := natDigits_all_digits (m.natAbs / 10 ^ e) d
      (by rw [hds]; exact List.mem_cons_self _ _)
    have hdm : ¬ d = '-' := by
      intro h
      rw [char_isDigit_iff, h, show ('-' : Char).toNat = 45 from rfl] at hdd
      simp at hdd
    rw [hds, List.cons_append, parseNumber.eq_def]
    split
    · rename_i r heq
      injection heq with hh _
      exact absurd hh hdm
    · rw [← List.cons_append, ← hds, parseNumAfterSign_dec m.natAbs e he false h1]
      have : (m.natAbs : Int) = m := by omega
      rw [if_neg (by simp), this]

/-! ## Whitespace -/

theorem skipWs_ws_append {l1 : List Char} (l2 : List Char)
    (h : ∀ c ∈ l1, isJsonWs c = true) : skipWs (l1 ++ l2) = skipWs l2 := by
  induction l1 with
  | nil => rfl
  | cons a as ih =>
    rw [List.cons_append, skipWs, List.dropWhile_cons,
      h a (List.mem_cons_self a as)]
    simp only [if_true]
    exact ih fun c hc => h c (List.mem_cons_of_mem _ hc)


theorem skipWs_indent (k : Nat) (l : List Char) :
    skipWs (indentChars k ++ l) = skipWs l := by
  apply skipWs_ws_append
  intro c hc
  rw [indentChars] at hc
  rw [List.eq_of_mem_replicate hc]
  rfl

theorem skipWs_cons_of_not_ws {c : Char} (h : isJsonWs c = false) (l : List Char) :
    skipWs (c :: l) = c :: l := by
  rw [skipWs, List.dropWhile_cons, h]
  simp

theorem skipWs_newline (l : List Char) : skipWs ('\n' :: l) = skipWs l := by
  rw [skipWs, List.dropWhile_cons]
  simp only [show isJsonWs '\n' = true from rfl, if_true]
  rfl

/-! ## Sorting, object building and canonicalization -/

theorem insField_perm (p : String × Json) (l : List (String × Json)) :
    (insField p l).Perm (p :: l) := by
  induction l with
  | nil => rw [insField]
  | cons q qs ih =>
    rw [insField]
    by_cases h : keyLe p.1 q.1 = true
    · rw [if_pos h]
    · rw [if_neg h]
      exact (ih.cons q).trans (List.Perm.swap p q qs)

theorem sortFields_perm (l : List (String × Json)) : (sortFields l).Perm l := by
  induction l with
  | nil => rw [sortFields]
  | cons p ps ih =>
    rw [sortFields]
    exact (insField_perm p (sortFields ps)).trans (ih.cons p)

theorem foldl_objUpd (ps : List (String × Json)) :
    ∀ acc, ((acc ++ ps).map Prod.fst).Nodup →
      ps.foldl (fun d p => objUpd d p.1 p.2) acc = acc ++ ps := by
  induction ps with
  | nil => intro acc _; simp
  | cons p ps ih =>
    intro acc h
    have hfresh : acc.any (fun q => q.1 == p.1) = false := by
      rw [List.any_eq_false]
      intro q hq hbeq
      rw [List.map_append, List.nodup_append] at h
      have hq1 : q.1 ∈ acc.map Prod.fst := List.mem_map_of_mem Prod.fst hq
      have hp1 : p.1 ∈ ((p :: ps).map Prod.fst) := by simp
      have heq : q.1 = p.1 := by simpa using hbeq
      exact h.2.2 hq1 (by rw [heq]; exact hp1)
    have hupd : objUpd acc p.1 p.2 = acc ++ [p] := by
      rw [objUpd, if_neg (by rw [hfresh]; exact Bool.false_ne_true)]
    rw [List.foldl_cons, hupd, ih (acc ++ [p]) (by simpa using h)]
    simp

/-- Reading back a printed object rebuilds exactly the printed field list:
the printer's keys are distinct, so the dict update never overwrites. -/
theorem objFromPairs_self {ps : List (String × Json)}
    (h : (ps.map Prod.fst).Nodup) : objFromPairs ps = ps := by
  have := foldl_objUpd ps [] (by simpa using h)
  simpa [objFromPairs] using this

theorem canonFields_map_fst (ps : List (String × Json)) :
    (canonFields ps).map Prod.fst = ps.map Prod.fst := by
  induction ps with
  | nil => rw [canonFields]
  | cons p ps ih =>
    obtain ⟨k, v⟩ := p
    rw [canonFields]
    simp [ih]

theorem mem_canonFields {ps : List (String × Json)} {q : String × Json}
    (h : q ∈ canonFields ps) : ∃ r ∈ ps, q = (r.1, canon r.2) := by
  induction ps with
  | nil => rw [canonFields] at h; cases h
  | cons p ps ih =>
    obtain ⟨k, v⟩ := p
    rw [canonFields] at h
    rcases List.mem_cons.mp h with h | h
    · exact ⟨(k, v), List.mem_cons_self _ _, h⟩
    · obtain ⟨r, hr, hq⟩ := ih h
      exact ⟨r, List.mem_cons_of_mem _ hr, hq⟩

theorem mem_canonList {xs : List Json} {y : Json} (h : y ∈ canonList xs) :
    ∃ x ∈ xs, y = canon x := by
  induction xs with
  | nil => rw [canonList] at h; cases h
  | cons x xs ih =>
    rw [canonList] at h
    rcases List.mem_cons.mp h with h | h
    · exact ⟨x, List.mem_cons_self _ _, h⟩
    · obtain ⟨x2, hx, hy⟩ := ih h
      exact ⟨x2, List.mem_cons_of_mem _ hx, hy⟩

theorem jsonWFList_iff (xs : List Json) :
    jsonWFList xs = true ↔ ∀ x ∈ xs, jsonWF x = true := by
  induction xs with
  | nil => rw [jsonWFList]; simp
  | cons x xs ih =>
    rw [jsonWFList]
    simp [ih]

theorem jsonWFFields_iff (ps : List (String × Json)) :
    jsonWFFields ps = true ↔ ∀ p ∈ ps, jsonWF p.2 = true := by
  induction ps with
  | nil => rw [jsonWFFields]; simp
  | cons p ps ih =>
    obtain ⟨k, v⟩ := p
    rw [jsonWFFields]
    simp [ih]

theorem jsonWF_obj_iff (kvs : List (String × Json)) :
    jsonWF (.obj kvs) = true ↔
      (kvs.map Prod.fst).Nodup ∧ jsonWFFields kvs = true := by
  rw [jsonWF]
  simp

theorem jsonWF_arr_iff (xs : List Json) :
    jsonWF (.arr xs) = true ↔ jsonWFList xs = true := by
  rw [jsonWF]

mutual

/-- Canonicalization preserves well-formedness: sorting keys keeps them
distinct and keeps every field value well-formed. -/
theorem jsonWF_canon : ∀ v, jsonWF v = true → jsonWF (canon v) = true
  | .null, h => by rwa [canon]
  | .bool b, h => by rwa [canon]
  | .int n, h => by rwa [canon]
  | .dec m e, h => by rwa [canon]
  | .str s, h => by rwa [canon]
  | .arr xs, h => by
      rw [canon, jsonWF_arr_iff]
      exact jsonWFList_canon xs (by rwa [jsonWF_arr_iff] at h)
  | .obj kvs, h => by
      rw [jsonWF_obj_iff] at h
      rw [canon, jsonWF_obj_iff]
      constructor
      · have hperm : ((sortFields (canonFields kvs)).map Prod.fst).Perm
            ((canonFields kvs).map Prod.fst) :=
          (sortFields_perm (canonFields kvs)).map Prod.fst
        rw [hperm.nodup_iff, canonFields_map_fst]
        exact h.1
      · rw [jsonWFFields_iff]
        intro p hp
        have hmem := (sortFields_perm (canonFields kvs)).mem_iff.mp hp
        have hf := jsonWFFields_canon kvs h.2
        exact (jsonWFFields_iff (canonFields kvs)).mp hf p hmem
termination_by v => sizeOf v

theorem jsonWFList_canon : ∀ xs, jsonWFList xs = true → jsonWFList (canonList xs) = true
  | [], _ => by rw [canonList, jsonWFList]
  | x :: xs, h => by
      rw [jsonWFList] at h
      simp only [Bool.and_eq_true] at h
      rw [canonList, jsonWFList]
      simp only [Bool.and_eq_true]
      exact ⟨jsonWF_canon x h.1, jsonWFList_canon xs h.2⟩
termination_by xs => sizeOf xs

theorem jsonWFFields_canon : ∀ ps, jsonWFFields ps = true → jsonWFFields (canonFields ps) = true
  | [], _ => by rw [canonFields, jsonWFFields]
  | (k, v) :: ps, h => by
      rw [jsonWFFields] at h
      simp only [Bool.and_eq_true] at h
      rw [canonFields, jsonWFFields]
      simp only [Bool.and_eq_true]
      exact ⟨jsonWF_canon v h.1, jsonWFFields_canon ps h.2⟩
termination_by ps => sizeOf ps

end

mutual

/-- A value and its canonical form carry the same fields: the dump/load
cycle reorders object fields, and nothing else. -/
theorem jequiv_canon : ∀ v, JEquiv v (canon v)
  | .null => by rw [canon]; exact .null
  | .bool b => by rw [canon]; exact .bool b
  | .int n => by rw [canon]; exact .int n
  | .dec m e => by rw [canon]; exact .dec m e
  | .str s => by rw [canon]; exact .str s
  | .arr xs => by rw [canon]; exact .arr _ _ (jequivList_canon xs)
  | .obj kvs => by
      rw [canon]
      exact .obj _ _ (canonFields kvs) (jequivFields_canon kvs)
        (sortFields_perm (canonFields kvs)).symm
termination_by v => sizeOf v

theorem jequivList_canon : ∀ xs, JEquivList xs (canonList xs)
  | [] => by rw [canonList]; exact .nil
  | x :: xs => by
      rw [canonList]
      exact .cons (jequiv_canon x) (jequivList_canon xs)
termination_by xs => sizeOf xs

theorem jequivFields_canon : ∀ ps, JEquivFields ps (canonFields ps)
  | [] => by rw [canonFields]; exact .nil
  | (k, v) :: ps => by
      rw [canonFields]
      exact .cons k (jequiv_canon v) (jequivFields_canon ps)
termination_by ps => sizeOf ps

end

/-! ## Parser step lemmas -/

theorem char_ne_of_toNat_ne {c d : Char} (h : ¬ c.toNat = d.toNat) : ¬ c = d :=
  fun he => h (by rw [he])

theorem not_special_of_toNat_range {c : Char} (h1 : 45 ≤ c.toNat) (h2 : c.toNat ≤ 57) :
    isJsonWs c = false ∧ ¬ c = ']' ∧ ¬ c = '}' := by
  have hsp : ¬ c = ' ' :=
    char_ne_of_toNat_ne (by rw [show (' ' : Char).toNat = 32 from rfl]; omega)
  have hta : ¬ c = '\t' :=
    char_ne_of_toNat_ne (by rw [show ('\t' : Char).toNat = 9 from rfl]; omega)
  have hnl : ¬ c = '\n' :=
    char_ne_of_toNat_ne (by rw [show ('\n' : Char).toNat = 10 from rfl]; omega)
  have hcr : ¬ c = '\r' :=
    char_ne_of_toNat_ne (by rw [show ('\r' : Char).toNat = 13 from rfl]; omega)
  refine ⟨by rw [isJsonWs]; simp [hsp, hta, hnl, hcr], ?_, ?_⟩
  · exact char_ne_of_toNat_ne (by rw [show (']' : Char).toNat = 93 from rfl]; omega)
  · exact char_ne_of_toNat_ne (by rw [show ('}' : Char).toNat = 125 from rfl]; omega)

theorem numDelim_facts {rest : List Char} (h : NumDelim rest) :
    rest.takeWhile Char.isDigit = [] ∧ rest.head? ≠ some '.' := by
  rcases h with rfl | ⟨c, cs, rfl, hc | hc⟩
  · exact ⟨rfl, by simp⟩
  · subst hc
    constructor
    · rw [List.takeWhile_cons, show (',' : Char).isDigit = false from rfl]
      simp
    · simp
  · subst hc
    constructor
    · rw [List.takeWhile_cons, show ('\n' : Char).isDigit = false from rfl]
      simp
    · simp

set_option maxHeartbeats 1000000 in
theorem parseVal_null (fuel : Nat) (rest : List Char) :
    parseVal (fuel + 1) ('n' :: 'u' :: 'l' :: 'l' :: rest) = some (.null, rest) := by
  rw [parseVal, skipWs_cons_of_not_ws (by rfl)]
  simp

set_option maxHeartbeats 1000000 in
theorem parseVal_true (fuel : Nat) (rest : List Char) :
    parseVal (fuel + 1) ('t' :: 'r' :: 'u' :: 'e' :: rest) = some (.bool true, rest) := by
  rw [parseVal, skipWs_cons_of_not_ws (by rfl)]
  simp

set_option maxHeartbeats 1000000 in
theorem parseVal_false (fuel : Nat) (rest : List Char) :
    parseVal (fuel + 1) ('f' :: 'a' :: 'l' :: 's' :: 'e' :: rest) = some (.bool false, rest) := by
  rw [parseVal, skipWs_cons_of_not_ws (by rfl)]
  simp

set_option maxHeartbeats 1000000 in
theorem parseVal_str (fuel : Nat) {body s r : List Char}
    (h : parseStrBody body = some (s, r)) :
    parseVal (fuel + 1) ('"' :: body) = some (.str ⟨s⟩, r) := by
  rw [parseVal, skipWs_cons_of_not_ws (by rfl)]
  simp [h]

set_option maxHeartbeats 1000000 in
theorem parseVal_lbracket (fuel : Nat) (t : List Char) :
    parseVal (fuel + 1) ('[' :: t) =
      (match skipWs t with
        | ']' :: r => some (Json.arr [], r)
        | _ =>
          match parseItems fuel t with
          | some (vs, r) => some (Json.arr vs, r)
          | none => none) := by
  rw [parseVal, skipWs_cons_of_not_ws (by rfl)]
  simp

set_option maxHeartbeats 1000000 in
theorem parseVal_lbrace (fuel : Nat) (t : List Char) :
    parseVal (fuel + 1) ('{' :: t) =
      (match skipWs t with
        | '}' :: r => some (Json.obj [], r)
        | _ =>
          match parseFields fuel t with
          | some (ps, r) => some (Json.obj (objFromPairs ps), r)
          | none => none) := by
  rw [parseVal, skipWs_cons_of_not_ws (by rfl)]
  simp

theorem parseVal_arr_nil (fuel : Nat) (rest : List Char) :
    parseVal (fuel + 1) ('[' :: ']' :: rest) = some (.arr [], rest) := by
  rw [parseVal_lbracket, skipWs_cons_of_not_ws (by rfl)]
  rfl

theorem parseVal_arr_cons (fuel : Nat) {t t0 : List Char} {c0 : Char}
    (hsk : skipWs t = c0 :: t0) (hne : ¬ c0 = ']') {vs : List Json} {r : List Char}
    (hp : parseItems fuel t = some (vs, r)) :
    parseVal (fuel + 1) ('[' :: t) = some (.arr vs, r) := by
  rw [parseVal_lbracket, hsk]
  split
  · rename_i heq
    injection heq with hh _
    exact absurd hh hne
  · rw [hp]

theorem parseVal_obj_nil (fuel : Nat) (rest : List Char) :
    parseVal (fuel + 1) ('{' :: '}' :: rest) = some (.obj [], rest) := by
  rw [parseVal_lbrace, skipWs_cons_of_not_ws (by rfl)]
  rfl

theorem parseVal_obj_cons (fuel : Nat) {t t0 : List Char} {c0 : Char}
    (hsk : skipWs t = c0 :: t0) (hne : ¬ c0 = '}')
    {ps : List (String × Json)} {r : List Char}
    (hp : parseFields fuel t = some (ps, r)) :
    parseVal (fuel + 1) ('{' :: t) = some (.obj (objFromPairs ps), r) := by
  rw [parseVal_lbrace, hsk]
  split
  · rename_i heq
    injection heq with hh _
    exact absurd hh hne
  · rw [hp]

set_option maxHeartbeats 1000000 in
theorem parseVal_number (fuel : Nat) {c : Char} (t : List Char)
    (h : c = '-' ∨ c.isDigit = true) :
    parseVal (fuel + 1) (c :: t) = parseNumber (c :: t) := by
  have hb : 45 ≤ c.toNat ∧ c.toNat ≤ 57 := by
    rcases h with h | h
    · rw [h]
      exact ⟨by decide, by decide⟩
    · rw [char_isDigit_iff] at h
      simp at h
      omega
  have hws := (not_special_of_toNat_range hb.1 hb.2).1
  have hn : ¬ c = 'n' :=
    char_ne_of_toNat_ne (by rw [show ('n' : Char).toNat = 110 from rfl]; omega)
  have ht : ¬ c = 't' :=
    char_ne_of_toNat_ne (by rw [show ('t' : Char).toNat = 116 from rfl]; omega)
  have hf : ¬ c = 'f' :=
    char_ne_of_toNat_ne (by rw [show ('f' : Char).toNat = 102 from rfl]; omega)
  have hq : ¬ c = '"' :=
    char_ne_of_toNat_ne (by rw [show ('"' : Char).toNat = 34 from rfl]; omega)
  have hlb : ¬ c = '[' :=
    char_ne_of_toNat_ne (by rw [show ('[' : Char).toNat = 91 from rfl]; omega)
  have hob : ¬ c = '{' :=
    char_ne_of_toNat_ne (by rw [show ('{' : Char).toNat = 123 from rfl]; omega)
  have hnum : (c = '-' ∨ c.isDigit = true) := h
  rw [parseVal, skipWs_cons_of_not_ws hws]
  simp only [if_neg hn, if_neg ht, if_neg hf, if_neg hq, if_neg hlb, if_neg hob]
  rw [if_pos (by rcases hnum with h2 | h2 <;> simp [h2])]

/-! ## Whitespace invariance of the parsers -/

theorem parseVal_ws_append (fuel : Nat) (pre : List Char)
    (h : ∀ c ∈ pre, isJsonWs c = true) (cs : List Char) :
    parseVal fuel (pre ++ cs) = parseVal fuel cs := by
  cases fuel with
  | zero => rw [parseVal, parseVal]
  | succ n => rw [parseVal, parseVal, skipWs_ws_append cs h]

theorem parseItems_ws_append (fuel : Nat) (pre : List Char)
    (h : ∀ c ∈ pre, isJsonWs c = true) (cs : List Char) :
    parseItems fuel (pre ++ cs) = parseItems fuel cs := by
  cases fuel with
  | zero => rw [parseItems, parseItems]
  | succ n => rw [parseItems, parseItems, parseVal_ws_append n pre h cs]

theorem parseFields_ws_append (fuel : Nat) (pre : List Char)
    (h : ∀ c ∈ pre, isJsonWs c = true) (cs : List Char) :
    parseFields fuel (pre ++ cs) = parseFields fuel cs := by
  cases fuel with
  | zero => rw [parseFields, parseFields]
  | succ n => rw [parseFields, parseFields, skipWs_ws_append cs h]

theorem ws_singleton_newline : ∀ c ∈ ['\n'], isJsonWs c = true := by
  intro c hc
  rw [List.mem_singleton] at hc
  rw [hc]
  rfl

theorem ws_indentChars (k : Nat) : ∀ c ∈ indentChars k, isJsonWs c = true := by
  intro c hc
  rw [indentChars] at hc
  rw [List.eq_of_mem_replicate hc]
  rfl

theorem parseVal_newline (fuel : Nat) (cs : List Char) :
    parseVal fuel ('\n' :: cs) = parseVal fuel cs :=
  parseVal_ws_append fuel ['\n'] ws_singleton_newline cs

theorem parseItems_newline (fuel : Nat) (cs : List Char) :
    parseItems fuel ('\n' :: cs) = parseItems fuel cs :=
  parseItems_ws_append fuel ['\n'] ws_singleton_newline cs

theorem parseFields_newline (fuel : Nat) (cs : List Char) :
    parseFields fuel ('\n' :: cs) = parseFields fuel cs :=
  parseFields_ws_append fuel ['\n'] ws_singleton_newline cs

theorem parseVal_indent (fuel k : Nat) (cs : List Char) :
    parseVal fuel (indentChars k ++ cs) = parseVal fuel cs :=
  parseVal_ws_append fuel (indentChars k) (ws_indentChars k) cs

/-! ## Printed values: head characters and sizes -/

theorem jsize_pos : ∀ v : Json, 1 ≤ jsize v
  | .null => by rw [jsize]
  | .bool b => by rw [jsize]
  | .int n => by rw [jsize]
  | .dec m e => by rw [jsize]
  | .str s => by rw [jsize]
  | .arr xs => by rw [jsize]; omega
  | .obj kvs => by rw [jsize]; omega

theorem intChars_head (n : Int) :
    ∃ c t, intChars n = c :: t ∧ (c = '-' ∨ c.isDigit = true) := by
  by_cases hn : n < 0
  · exact ⟨'-', natDigits n.natAbs, by rw [intChars, if_pos hn], Or.inl rfl⟩
  · obtain ⟨d, ds, hds⟩ := List.exists_cons_of_ne_nil (natDigits_ne_nil n.natAbs)
    have hdd := natDigits_all_digits n.natAbs d (by rw [hds]; exact List.mem_cons_self _ _)
    exact ⟨d, ds, by rw [intChars, if_neg hn, hds], Or.inr hdd⟩

theorem decChars_head (m : Int) (e : Nat) :
    ∃ c t, decChars m e = c :: t ∧ (c = '-' ∨ c.isDigit = true) := by
  by_cases hm : m < 0
  · refine ⟨'-', natDigits (m.natAbs / 10 ^ e) ++ '.' :: natPad e (m.natAbs % 10 ^ e),
      ?_, Or.inl rfl⟩
    rw [decChars]
    simp [if_pos hm]
  · obtain ⟨d, ds, hds⟩ := List.exists_cons_of_ne_nil (natDigits_ne_nil (m.natAbs / 10 ^ e))
    have hdd := natDigits_all_digits (m.natAbs / 10 ^ e) d
      (by rw [hds]; exact List.mem_cons_self _ _)
    refine ⟨d, ds ++ '.' :: natPad e (m.natAbs % 10 ^ e), ?_, Or.inr hdd⟩
    rw [decChars]
    simp [if_neg hm, hds]

theorem numHead_not_special {c : Char} (h : c = '-' ∨ c.isDigit = true) :
    isJsonWs c = false ∧ ¬ c = ']' ∧ ¬ c = '}' := by
  have hb : 45 ≤ c.toNat ∧ c.toNat ≤ 57 := by
    rcases h with h | h
    · rw [h]
      exact ⟨by decide, by decide⟩
    · rw [char_isDigit_iff] at h
      simp at h
      omega
  exact not_special_of_toNat_range hb.1 hb.2

/-- Every printed value starts with a visible character that is not a
closing bracket, so a container scanner never mistakes an element for its
own terminator. -/
theorem dumpsVal_head (lvl : Nat) : ∀ v : Json, ∃ c cs,
    dumpsVal lvl v = c :: cs ∧ isJsonWs c = false ∧ ¬ c = ']' ∧ ¬ c = '}'
  | .null => ⟨'n', _, by rw [dumpsVal], by decide, by decide, by decide⟩
  | .bool true => ⟨'t', _, by rw [dumpsVal], by decide, by decide, by decide⟩
  | .bool false => ⟨'f', _, by rw [dumpsVal], by decide, by decide, by decide⟩
  | .int n => by
      obtain ⟨c, t, heq, hc⟩ := intChars_head n
      obtain ⟨h1, h2, h3⟩ := numHead_not_special hc
      exact ⟨c, t, by rw [dumpsVal, heq], h1, h2, h3⟩
  | .dec m e => by
      obtain ⟨c, t, heq, hc⟩ := decChars_head m e
      obtain ⟨h1, h2, h3⟩ := numHead_not_special hc
      exact ⟨c, t, by rw [dumpsVal, heq], h1, h2, h3⟩
  | .str s =>
      ⟨'"', escList s ++ ['"'], by rw [dumpsVal]; rfl, by decide, by decide, by decide⟩
  | .arr [] => ⟨'[', _, by rw [dumpsVal], by decide, by decide, by decide⟩
  | .arr (x :: xs) => ⟨'[', _, by rw [dumpsVal], by decide, by decide, by decide⟩
  | .obj [] => ⟨'{', _, by rw [dumpsVal], by decide, by decide, by decide⟩
  | .obj ((k, v) :: ps) => ⟨'{', _, by rw [dumpsVal], by decide, by decide, by decide⟩

/-- Skipping whitespace at the head of a printed item list lands on the
first item's value text, whose head is not a closing bracket. -/
theorem skipWs_dumpsItems (lvl : Nat) (x : Json) (xs : List Json) (X : List Char) :
    ∃ c t, skipWs (dumpsItems lvl x xs ++ X) = c :: t ∧ ¬ c = ']' ∧ ¬ c = '}' := by
  obtain ⟨c, cs, hd, hws, h1, h2⟩ := dumpsVal_head lvl x
  have hsh : ∃ tail, dumpsItems lvl x xs =
      indentChars (4 * lvl) ++ (dumpsVal lvl x ++ tail) := by
    cases xs with
    | nil => exact ⟨[], by rw [dumpsItems]; simp⟩
    | cons y ys => exact ⟨',' :: '\n' :: dumpsItems lvl y ys, by rw [dumpsItems]⟩
  obtain ⟨tail, htail⟩ := hsh
  refine ⟨c, cs ++ (tail ++ X), ?_, h1, h2⟩
  rw [htail]
  rw [List.append_assoc, skipWs_ws_append _ (ws_indentChars (4 * lvl)),
    List.append_assoc, hd, List.cons_append, skipWs_cons_of_not_ws hws]

/-- Skipping whitespace at the head of a printed field list lands on the
opening quote of the first key. -/
theorem skipWs_dumpsFields (lvl : Nat) (k : String) (v : Json)
    (kvs : List (String × Json)) (X : List Char) :
    ∃ t, skipWs (dumpsFields lvl k v kvs ++ X) = '"' :: t := by
  have hsh : ∃ tail, dumpsFields lvl k v kvs =
      indentChars (4 * lvl) ++ (strChars k ++ tail) := by
    cases kvs with
    | nil => exact ⟨':' :: ' ' :: dumpsVal lvl v, by rw [dumpsFields]⟩
    | cons p ps =>
        exact ⟨':' :: ' ' :: (dumpsVal lvl v ++ ',' :: '\n' :: dumpsFields lvl p.1 p.2 ps),
          by rw [dumpsFields]⟩
  obtain ⟨tail, htail⟩ := hsh
  refine ⟨escList k ++ ['"'] ++ (tail ++ X), ?_⟩
  rw [htail, List.append_assoc, skipWs_ws_append _ (ws_indentChars (4 * lvl)),
    List.append_assoc, show strChars k = '"' :: (escList k ++ ['"']) from rfl,
    List.cons_append, skipWs_cons_of_not_ws (by rfl)]

/-! ## The round trip: parsing what the printer wrote -/

/-- Fuel-indexed round trip for the three mutually recursive scanners:
with enough fuel, the text printed for a well-formed value (or for the
items or fields of one, followed by the separator and closing bracket the
enclosing printer writes) is read back as exactly that value. -/
theorem parse_dumps_loop : ∀ fuel : Nat,
    (∀ (v : Json) (lvl : Nat) (rest : List Char), jsonWF v = true →
      jsize v ≤ fuel → NumDelim rest →
      parseVal fuel (dumpsVal lvl v ++ rest) = some (v, rest)) ∧
    (∀ (x : Json) (xs : List Json) (lvl k : Nat) (rest : List Char),
      jsonWFList (x :: xs) = true → jsizeList (x :: xs) ≤ fuel → NumDelim rest →
      parseItems fuel (dumpsItems lvl x xs ++ '\n' :: (indentChars k ++ ']' :: rest)) =
        some (x :: xs, rest)) ∧
    (∀ (k2 : String) (v2 : Json) (kvs : List (String × Json)) (lvl k : Nat)
      (rest : List Char),
      jsonWFFields ((k2, v2) :: kvs) = true → jsizeFields ((k2, v2) :: kvs) ≤ fuel →
      NumDelim rest →
      parseFields fuel
        (dumpsFields lvl k2 v2 kvs ++ '\n' :: (indentChars k ++ '}' :: rest)) =
        some ((k2, v2) :: kvs, rest)) := by
  intro fuel
  induction fuel with
  | zero =>
    refine ⟨fun v lvl rest _ hsz _ => ?_, fun x xs lvl k rest _ hsz _ => ?_,
      fun k2 v2 kvs lvl k rest _ hsz _ => ?_⟩
    · have := jsize_pos v
      omega
    · rw [jsizeList] at hsz
      omega
    · rw [jsizeFields] at hsz
      omega
  | succ fuel ih =>
    obtain ⟨ihv, ihi, ihf⟩ := ih
    refine ⟨fun v lvl rest hwf hsz hnd => ?_, fun x xs lvl k rest hwf hsz hnd => ?_,
      fun k2 v2 kvs lvl k rest hwf hsz hnd => ?_⟩
    · -- one value
      cases v with
      | null =>
        rw [dumpsVal]
        exact parseVal_null fuel rest
      | bool b =>
        cases b
        · rw [dumpsVal]
          exact parseVal_false fuel rest
        · rw [dumpsVal]
          exact parseVal_true fuel rest
      | int n =>
        obtain ⟨c, t, heq, hc⟩ := intChars_head n
        obtain ⟨hd1, hd2⟩ := numDelim_facts hnd
        rw [dumpsVal, heq, List.cons_append, parseVal_number fuel _ hc,
          ← List.cons_append, ← heq]
        exact parseNumber_intChars n hd1 hd2
      | dec m e =>
        obtain ⟨c, t, heq, hc⟩ := decChars_head m e
        obtain ⟨hd1, hd2⟩ := numDelim_facts hnd
        have he : 1 ≤ e := by
          rw [jsonWF] at hwf
          simp at hwf
          exact hwf.1
        rw [dumpsVal, heq, List.cons_append, parseVal_number fuel _ hc,
          ← List.cons_append, ← heq]
        exact parseNumber_decChars m e he hd1
      | str s =>
        rw [dumpsVal, show strChars s = '"' :: (escList s ++ ['"']) from rfl,
          List.cons_append]
        have hbody : parseStrBody ((escList s ++ ['"']) ++ rest) = some (s.data, rest) := by
          rw [List.append_assoc, List.singleton_append]
          exact parseStrBody_escList s.data rest
        rw [parseVal_str fuel hbody]
      | arr xs =>
        cases xs with
        | nil =>
          rw [dumpsVal]
          exact parseVal_arr_nil fuel rest
        | cons x xs2 =>
          rw [dumpsVal]
          simp only [List.cons_append, List.append_assoc, List.singleton_append]
          rw [jsonWF_arr_iff] at hwf
          rw [jsize] at hsz
          obtain ⟨c0, t0, hsk0, hne0, _⟩ := skipWs_dumpsItems (lvl + 1) x xs2
            ('\n' :: (indentChars (4 * lvl) ++ ']' :: rest))
          have hp : parseItems fuel
              ('\n' :: (dumpsItems (lvl + 1) x xs2 ++
                '\n' :: (indentChars (4 * lvl) ++ ']' :: rest))) =
              some (x :: xs2, rest) := by
            rw [parseItems_newline]
            exact ihi x xs2 (lvl + 1) (4 * lvl) rest hwf (by omega) hnd
          exact parseVal_arr_cons fuel (by rw [skipWs_newline]; exact hsk0) hne0 hp
      | obj kvs =>
        cases kvs with
        | nil =>
          rw [dumpsVal]
          exact parseVal_obj_nil fuel rest
        | cons p ps =>
          obtain ⟨k2, v2⟩ := p
          rw [dumpsVal]
          simp only [List.cons_append, List.append_assoc, List.singleton_append,
            List.nil_append]
          rw [jsonWF_obj_iff] at hwf
          rw [jsize] at hsz
          obtain ⟨t0, hsk0⟩ := skipWs_dumpsFields (lvl + 1) k2 v2 ps
            ('\n' :: (indentChars (4 * lvl) ++ '}' :: rest))
          have hp : parseFields fuel
              ('\n' :: (dumpsFields (lvl + 1) k2 v2 ps ++
                '\n' :: (indentChars (4 * lvl) ++ '}' :: rest))) =
              some ((k2, v2) :: ps, rest) := by
            rw [parseFields_newline]
            exact ihf k2 v2 ps (lvl + 1) (4 * lvl) rest hwf.2 (by omega) hnd
          have hres := parseVal_obj_cons fuel (by rw [skipWs_newline]; exact hsk0)
            (by decide) hp
          rw [hres, objFromPairs_self hwf.1]
    · -- item list
      rw [jsonWFList] at hwf
      simp only [Bool.and_eq_true] at hwf
      rw [jsizeList] at hsz
      cases xs with
      | nil =>
        rw [dumpsItems]
        simp only [List.append_assoc]
        rw [parseItems, parseVal_ws_append fuel (indentChars (4 * lvl)) (ws_indentChars _) _,
          ihv x lvl _ hwf.1 (by omega) (Or.inr ⟨'\n', _, rfl, Or.inr rfl⟩)]
        simp only []
        rw [skipWs_newline, skipWs_ws_append _ (ws_indentChars k),
          skipWs_cons_of_not_ws (by rfl)]
        rfl
      | cons y ys =>
        rw [dumpsItems]
        simp only [List.append_assoc, List.cons_append]
        rw [parseItems, parseVal_ws_append fuel (indentChars (4 * lvl)) (ws_indentChars _) _,
          ihv x lvl _ hwf.1 (by omega) (Or.inr ⟨',', _, rfl, Or.inl rfl⟩)]
        simp only []
        rw [skipWs_cons_of_not_ws (by rfl)]
        have hrec : parseItems fuel
            ('\n' :: (dumpsItems lvl y ys ++ '\n' :: (indentChars k ++ ']' :: rest))) =
            some (y :: ys, rest) := by
          rw [parseItems_newline]
          exact ihi y ys lvl k rest hwf.2 (by omega) hnd
        simp only []
        rw [hrec]
    · -- field list
      rw [jsonWFFields] at hwf
      simp only [Bool.and_eq_true] at hwf
      rw [jsizeFields] at hsz
      cases kvs with
      | nil =>
        rw [dumpsFields]
        simp only [List.append_assoc, List.cons_append]
        rw [parseFields, skipWs_ws_append _ (ws_indentChars (4 * lvl)),
          show strChars k2 = '"' :: (escList k2 ++ ['"']) from rfl,
          List.cons_append, List.append_assoc, List.singleton_append,
          skipWs_cons_of_not_ws (by rfl)]
        simp only []
        rw [parseStrBody_escList2 k2]
        simp only []
        rw [skipWs_cons_of_not_ws (by rfl)]
        simp only []
        rw [show ∀ cs, parseVal fuel (' ' :: cs) = parseVal fuel cs from
            fun cs => parseVal_ws_append fuel [' '] (by decide) cs,
          ihv v2 lvl _ hwf.1 (by omega) (Or.inr ⟨'\n', _, rfl, Or.inr rfl⟩)]
        simp only []
        rw [skipWs_newline, skipWs_ws_append _ (ws_indentChars k),
          skipWs_cons_of_not_ws (by rfl)]
        rfl
      | cons p2 ps2 =>
        obtain ⟨k3, v3⟩ := p2
        rw [dumpsFields]
        simp only [List.append_assoc, List.cons_append]
        rw [parseFields, skipWs_ws_append _ (ws_indentChars (4 * lvl)),
          show strChars k2 = '"' :: (escList k2 ++ ['"']) from rfl,
          List.cons_append, List.append_assoc, List.singleton_append,
          skipWs_cons_of_not_ws (by rfl)]
        simp only []
        rw [parseStrBody_escList2 k2]
        simp only []
        rw [skipWs_cons_of_not_ws (by rfl)]
        simp only []
        rw [show ∀ cs, parseVal fuel (' ' :: cs) = parseVal fuel cs from
            fun cs => parseVal_ws_append fuel [' '] (by decide) cs,
          ihv v2 lvl _ hwf.1 (by omega) (Or.inr ⟨',', _, rfl, Or.inl rfl⟩)]
        simp only []
        rw [skipWs_cons_of_not_ws (by rfl)]
        simp only []
        have hrec : parseFields fuel
            ('\n' :: (dumpsFields lvl k3 v3 ps2 ++
              '\n' :: (indentChars k ++ '}' :: rest))) =
            some ((k3, v3) :: ps2, rest) := by
          rw [parseFields_newline]
          exact ihf k3 v3 ps2 lvl k rest hwf.2 (by omega) hnd
        rw [hrec]

/-! ## Enough fuel: the input length bounds the value size -/

mutual

theorem jsize_le : ∀ (v : Json) (lvl : Nat), jsize v ≤ (dumpsVal lvl v).length + 1
  | .null, lvl => by rw [jsize, dumpsVal]; simp
  | .bool true, lvl => by rw [jsize, dumpsVal]; simp
  | .bool false, lvl => by rw [jsize, dumpsVal]; simp
  | .int n, lvl => by rw [jsize, dumpsVal]; omega
  | .dec m e, lvl => by rw [jsize, dumpsVal]; omega
  | .str s, lvl => by rw [jsize, dumpsVal]; omega
  | .arr [], lvl => by rw [jsize, jsizeList, dumpsVal]; simp
  | .arr (x :: xs), lvl => by
      have h := jsizeList_le x xs (lvl + 1)
      rw [jsize, jsizeList] at *
      rw [dumpsVal]
      simp only [List.length_cons, List.length_append]
      omega
  | .obj [], lvl => by rw [jsize, jsizeFields, dumpsVal]; simp
  | .obj ((k, v) :: ps), lvl => by
      have h := jsizeFields_le k v ps (lvl + 1)
      rw [jsize, jsizeFields] at *
      rw [dumpsVal]
      simp only [List.length_cons, List.length_append]
      omega
termination_by v => sizeOf v

theorem jsizeList_le : ∀ (x : Json) (xs : List Json) (lvl : Nat),
    jsizeList (x :: xs) ≤ (dumpsItems lvl x xs).length + 2
  | x, [], lvl => by
      have h := jsize_le x lvl
      rw [jsizeList, jsizeList, dumpsItems]
      simp only [List.length_append]
      omega
  | x, y :: ys, lvl => by
      have h1 := jsize_le x lvl
      have h2 := jsizeList_le y ys lvl
      rw [jsizeList, dumpsItems]
      simp only [List.length_append, List.length_cons]
      omega
termination_by x xs => 1 + sizeOf x + sizeOf xs

theorem jsizeFields_le : ∀ (k : String) (v : Json) (ps : List (String × Json)) (lvl : Nat),
    jsizeFields ((k, v) :: ps) ≤ (dumpsFields lvl k v ps).length + 2
  | k, v, [], lvl => by
      have h := jsize_le v lvl
      rw [jsizeFields, jsizeFields, dumpsFields]
      simp only [List.length_append, List.length_cons]
      omega
  | k, v, (k3, v3) :: ps, lvl => by
      have h1 := jsize_le v lvl
      have h2 := jsizeFields_le k3 v3 ps lvl
      rw [jsizeFields, dumpsFields]
      simp only [List.length_append, List.length_cons]
      omega
termination_by _ v ps => 1 + sizeOf v + sizeOf ps

end

/-- The full round trip through the serializer: the canonical text written
for a well-formed value reads back as the value's canonical form — the
same value up to recursive key ordering. -/
theorem loads_dumps (v : Json) (h : jsonWF v = true) :
    loads (dumps v) = some (canon v) := by
  have hfuel : jsize (canon v) ≤ (dumpsVal 0 (canon v)).length + 1 := jsize_le (canon v) 0
  have hrun := (parse_dumps_loop ((dumpsVal 0 (canon v)).length + 1)).1 (canon v) 0 []
    (jsonWF_canon v h) hfuel (Or.inl rfl)
  rw [List.append_nil] at hrun
  show (match parseVal ((dumpsVal 0 (canon v)).length + 1) (dumpsVal 0 (canon v)) with
    | some (w, rest) => if (skipWs rest).isEmpty then some w else none
    | none => none) = some (canon v)
  rw [hrun]
  rfl

/-! ## Fetch Cache theorems (C4, C5) -/

theorem dictGet_dictSet_self (d : List (String × String)) (key val : String) :
    dictGet (dictSet d key val) key = some val := by
  by_cases h : d.any (fun p => p.1 == key)
  · rw [dictSet, if_pos h]
    induction d with
    | nil => simp at h
    | cons p ps ih =>
      rw [List.any_cons] at h
      by_cases hp : p.1 == key
      · rw [List.map_cons, if_pos hp, dictGet]
        simp
      · rw [List.map_cons, if_neg hp]
        have hps : ps.any (fun p => p.1 == key) := by
          rcases Bool.or_eq_true_iff.mp h with h2 | h2
          · exact absurd h2 hp
          · exact h2
        have := ih hps
        rw [dictGet] at this ⊢
        rw [List.filter_cons, if_neg (by simpa using hp)]
        exact this
  · rw [dictSet, if_neg h, dictGet, List.filter_append]
    have hnil : d.filter (fun p => p.1 == key) = [] := by
      rw [List.filter_eq_nil_iff]
      intro p hp hpk
      exact absurd (List.any_eq_true.mpr ⟨p, hp, hpk⟩) h
    rw [hnil, List.nil_append]
    simp [List.filter]

/-- C4: the Fetch Cache contract.  With `use_cache` set and a value
already persisted at the key, the wrapper returns the deserialized
persisted value, leaves the store untouched and never invokes the
producer (the producer-ran flag is false, and the result does not depend
on the producer at all); with `use_cache` unset it always invokes the
producer and neither reads nor writes the store — the result is the
producer's value and the store is returned unchanged whatever it
contains. -/
theorem cache_wrapper_contract (fname : String) (producer : Unit → CacheVal)
    (fs : FS) :
    (∀ content v, FS.read fs fname = some content →
      deserializeAt fname content = .ok v →
      cache_wrapper fname true producer fs = .ok (v, fs, false)) ∧
    cache_wrapper fname false producer fs = .ok (producer (), fs, true) := by
  constructor
  · intro content v hread hdes
    rw [cache_wrapper]
    simp only [reduceIte]
    rw [hread]
    simp only []
    rw [hdes]
  · rfl

/-- Closed witness for the C4 theorem at a raw-text key: a cached page is
returned from the store without running the producer, and with caching
off the producer's fresh value is returned with the store untouched. -/
theorem cache_wrapper_contract_witness :
    (cache_wrapper "cache/events/ev1" true (fun _ => .text "fresh")
      [("cache/events/ev1", "stored")] = .ok (.text "stored",
        [("cache/events/ev1", "stored")], false)) ∧
    (cache_wrapper "cache/events/ev1" false (fun _ => .text "fresh")
      [("cache/events/ev1", "stored")] = .ok (.text "fresh",
        [("cache/events/ev1", "stored")], true)) :=
  ⟨(cache_wrapper_contract "cache/events/ev1" (fun _ => .text "fresh")
      [("cache/events/ev1", "stored")]).1 "stored" (.text "stored")
      (by rfl) (by rfl),
   (cache_wrapper_contract "cache/events/ev1" (fun _ => .text "fresh")
      [("cache/events/ev1", "stored")]).2⟩

/-- C5: the structured round trip through the Fetch Cache.  Writing a
well-formed structured value under a `.json` key persists its canonical
text, and reading it back yields the value's canonical form — a value
with exactly the same field sets and field values, fields only reordered
(the `JEquiv` conjunct), with nothing added, dropped or altered. -/
theorem cache_json_roundtrip (fname : String) (fs : FS) (v : Json)
    (producer : Unit → CacheVal)
    (hext : pySplitextExt fname = ".json")
    (hprod : producer () = .json v)
    (hwf : jsonWF v = true)
    (hmiss : FS.read fs fname = none) :
    cache_wrapper fname true producer fs =
      .ok (.json v, FS.write fs fname (dumps v), true) ∧
    (∀ producer2 : Unit → CacheVal,
      cache_wrapper fname true producer2 (FS.write fs fname (dumps v)) =
        .ok (.json (canon v), FS.write fs fname (dumps v), false)) ∧
    JEquiv v (canon v) := by
  refine ⟨?_, ?_, jequiv_canon v⟩
  · rw [cache_wrapper]
    simp only [reduceIte]
    rw [hmiss]
    simp only [hprod, if_pos hext, CacheVal.toJson]
  · intro producer2
    rw [cache_wrapper]
    simp only [reduceIte]
    rw [show FS.read (FS.write fs fname (dumps v)) fname = some (dumps v) from
      dictGet_dictSet_self fs fname (dumps v)]
    simp only []
    rw [show deserializeAt fname (dumps v) = Except.ok (CacheVal.json (canon v)) from by
      rw [deserializeAt, if_pos hext, loads_dumps v hwf]]

/-- Closed witness for the C5 theorem: a two-field object (keys given out
of order) written through the cache under a `.json` key, then read back by
a second call whose own producer is irrelevant. -/
theorem cache_json_roundtrip_witness :
    (cache_wrapper "cache/events/ev2024.json" true
      (fun _ => .json (Json.obj [("b", .int 1), ("a", .str "x")])) [] =
      .ok (.json (Json.obj [("b", .int 1), ("a", .str "x")]),
        FS.write [] "cache/events/ev2024.json"
          (dumps (Json.obj [("b", .int 1), ("a", .str "x")])), true)) ∧
    (cache_wrapper "cache/events/ev2024.json" true (fun _ => .text "other")
      (FS.write [] "cache/events/ev2024.json"
        (dumps (Json.obj [("b", .int 1), ("a", .str "x")]))) =
      .ok (.json (canon (Json.obj [("b", .int 1), ("a", .str "x")])),
        FS.write [] "cache/events/ev2024.json"
          (dumps (Json.obj [("b", .int 1), ("a", .str "x")])), false)) ∧
    JEquiv (Json.obj [("b", .int 1), ("a", .str "x")])
      (canon (Json.obj [("b", .int 1), ("a", .str "x")])) := by
  have h := cache_json_roundtrip "cache/events/ev2024.json" []
    (Json.obj [("b", .int 1), ("a", .str "x")])
    (fun _ => .json (Json.obj [("b", .int 1), ("a", .str "x")]))
    (by decide) rfl
    (by simp [jsonWF, jsonWFFields, jsonWFList]) rfl
  exact ⟨h.1, h.2.1 (fun _ => .text "other"), h.2.2⟩

end Runcity
